import Mathlib

/-!
Verification development for the grocery price-quotation backend
(`backend/agent.py`, `backend/scraper.py`, `backend/normalizer.py`,
`backend/main.py`).

The Python code is shallowly embedded:
* Python `str` is Lean `String` (a list of unicode code points, matching
  Python's code-point view of `str`);
* Python `float` prices are modelled as exact rationals `ℚ` (the spec treats
  prices as decimal numbers);
* Python `dict` (insertion ordered, unique keys) is modelled as an
  association list `AList` together with the insert-in-place-or-append
  operation `ainsert`, which is exactly the semantics of `d[k] = v`;
* fallible / effectful collaborators (HTTP fetch via `httpx`, HTML parsing
  via BeautifulSoup, the headless browser) are passed in as explicit
  function parameters, and the list of URLs handed to the fetch capability
  is returned as an explicit trace where a claim talks about fetch calls.
-/

namespace Mercado

/-! ## Python string primitives -/

/-- The whitespace characters of Python's `str.strip()` / the regex class
`\s` (ASCII part; the claims only exercise ASCII whitespace). -/
def isPySpace (c : Char) : Bool :=
  c = ' ' || c = '\t' || c = '\n' || c = '\r' || c = '\x0b' || c = '\x0c'

/-- The regex character class `[0-9]`. -/
def isDigitCh (c : Char) : Bool :=
  48 ≤ c.toNat && c.toNat ≤ 57

/-- `str.lower()` on one character (ASCII range, identity elsewhere). -/
def pyLowerChar (c : Char) : Char :=
  if 65 ≤ c.toNat && c.toNat ≤ 90 then Char.ofNat (c.toNat + 32) else c

/-- `str.lower()`. -/
def pyLower (s : String) : String :=
  ⟨s.data.map pyLowerChar⟩

def pyStripList (cs : List Char) : List Char :=
  ((cs.dropWhile isPySpace).reverse.dropWhile isPySpace).reverse

/-- `str.strip()` with no argument: drop whitespace from both ends. -/
def pyStrip (s : String) : String :=
  ⟨pyStripList s.data⟩

/-- Does `hay` start with `needle`? -/
def listStartsWith : List Char → List Char → Bool
  | [], _ => true
  | _ :: _, [] => false
  | a :: as, b :: bs => a = b && listStartsWith as bs

/-- Does `hay` contain `needle` as a contiguous sublist? -/
def listContainsSub (needle : List Char) : List Char → Bool
  | [] => listStartsWith needle []
  | b :: bs => listStartsWith needle (b :: bs) || listContainsSub needle bs

/-- Python's substring test `needle in hay`. -/
def pySubstr (needle hay : String) : Bool :=
  listContainsSub needle.data hay.data

/-- Python's `s.startswith(pat)`. -/
def pyStartsWith (s pat : String) : Bool :=
  listStartsWith pat.data s.data

/-- Python's `s.endswith(pat)`. -/
def pyEndsWith (s pat : String) : Bool :=
  listStartsWith pat.data.reverse s.data.reverse

/-- Python's `url.rstrip("/")`. -/
def rstripSlashes (s : String) : String :=
  ⟨(s.data.reverse.dropWhile (fun c => c = '/')).reverse⟩

/-- Python's `s[:n]` (a slice of code points). -/
def takeChars (n : Nat) (s : String) : String :=
  ⟨s.data.take n⟩

/-- Numeric value of a digit string (used for `float("<digits>.<digits>")`). -/
def digitsToNat (cs : List Char) : Nat :=
  cs.foldl (fun n c => 10 * n + (c.toNat - 48)) 0

/-! ## `CURRENCY_RE` and `parse_brl` (backend/agent.py)

`CURRENCY_RE = re.compile(r"R\$\s*([0-9]{1,3}(?:\.[0-9]{3})*|[0-9]+),([0-9]{2})")`

The regex is embedded as a backtracking matcher specialised to this
pattern, with Python's leftmost-start, alternation-in-order, greedy
quantifier semantics.  A matcher result is
`(group 1, first fraction digit, second fraction digit, remaining input)`. -/

/-- Match the tail `,([0-9]{2})` of the pattern and return the groups. -/
def finishBrl (acc : List Char) : List Char → Option (List Char × Char × Char × List Char)
  | ',' :: d1 :: d2 :: rest =>
      if isDigitCh d1 && isDigitCh d2 then some (acc, d1, d2, rest) else none
  | _ => none

/-- Greedy `(?:\.[0-9]{3})*` followed by `,([0-9]{2})`, with backtracking:
prefer consuming one more `.[0-9]{3}` group; if the rest of the pattern then
fails, fall back to ending group 1 here. -/
def tryGroups (acc : List Char) : List Char → Option (List Char × Char × Char × List Char)
  | '.' :: a :: b :: c :: rest =>
      if isDigitCh a && isDigitCh b && isDigitCh c then
        (tryGroups (acc ++ ['.', a, b, c]) rest).orElse
          (fun _ => finishBrl acc ('.' :: a :: b :: c :: rest))
      else finishBrl acc ('.' :: a :: b :: c :: rest)
  | cs => finishBrl acc cs

/-- One backtracking branch of `[0-9]{1,3}`: exactly `n` leading digits. -/
def tryLen (n : Nat) (cs : List Char) : Option (List Char × Char × Char × List Char) :=
  let pre := cs.take n
  if pre.length = n && pre.all isDigitCh then tryGroups pre (cs.drop n) else none

/-- First alternative `[0-9]{1,3}(?:\.[0-9]{3})*` (greedy: 3, then 2, then 1
leading digits). -/
def tryAlt1 (cs : List Char) : Option (List Char × Char × Char × List Char) :=
  (tryLen 3 cs).orElse fun _ => (tryLen 2 cs).orElse fun _ => tryLen 1 cs

/-- Backtracking loop of greedy `[0-9]+`: try the `k` longest digit runs. -/
def alt2Loop (ds rest0 : List Char) : Nat → Option (List Char × Char × Char × List Char)
  | 0 => none
  | k + 1 =>
      (finishBrl (ds.take (k + 1)) (ds.drop (k + 1) ++ rest0)).orElse
        fun _ => alt2Loop ds rest0 k

/-- Second alternative `[0-9]+` (greedy with backtracking). -/
def tryAlt2 (cs : List Char) : Option (List Char × Char × Char × List Char) :=
  alt2Loop (cs.takeWhile isDigitCh) (cs.dropWhile isDigitCh) (cs.takeWhile isDigitCh).length

/-- The pattern after `R$`: `\s*` (greedy; no digit is whitespace, so no
backtracking is possible here) followed by the group-1 alternation. -/
def brlTail (cs : List Char) : Option (List Char × Char × Char × List Char) :=
  (tryAlt1 (cs.dropWhile isPySpace)).orElse fun _ => tryAlt2 (cs.dropWhile isPySpace)

/-- Attempt to match `CURRENCY_RE` anchored at the start of `cs`. -/
def matchBrlAt : List Char → Option (List Char × Char × Char × List Char)
  | 'R' :: '$' :: rest => brlTail rest
  | _ => none

/-- `re.search`: try every start position from the left, first match wins. -/
def searchBrl : List Char → Option (List Char × Char × Char × List Char)
  | [] => none
  | c :: rest => (matchBrlAt (c :: rest)).orElse fun _ => searchBrl rest

/-- The number denoted by the two captured groups:
`float(f"{inteiro}.{centavos}")` after `inteiro = group1.replace(".", "")`. -/
def brlValue (g1 : List Char) (d1 d2 : Char) : ℚ :=
  (digitsToNat (g1.filter (fun c => c ≠ '.')) : ℚ) + (digitsToNat [d1, d2] : ℚ) / 100

/-- `parse_brl` (backend/agent.py lines 24-33).  The guarded `float(...)`
conversion cannot fail on a string of the shape `<digits>.<2 digits>`, so the
`except` branch that returns `None` is unreachable and the match value is
always produced. -/
def parse_brl (s : String) : Option ℚ :=
  match searchBrl s.data with
  | none => none
  | some (g1, d1, d2, _) => some (brlValue g1 d1 d2)

/-! ## Association lists: the model of Python `dict`

`d[k] = v` on a Python dict replaces the value in place when `k` is present
(keeping its position in the insertion order) and appends the pair at the end
otherwise; `ainsert` is exactly that. -/

abbrev AList (β : Type) := List (String × β)

def alookup {β : Type} : AList β → String → Option β
  | [], _ => none
  | (k, v) :: rest, key => if k = key then some v else alookup rest key

def ainsert {β : Type} : AList β → String → β → AList β
  | [], k, v => [(k, v)]
  | (k', v') :: rest, k, v =>
      if k' = k then (k', v) :: rest else (k', v') :: ainsert rest k v

def akeys {β : Type} (m : AList β) : List String :=
  m.map Prod.fst

/-- A sequence of dict writes `m[k] = v`, in list order. -/
def writeAll {β : Type} (m : AList β) (xs : List (String × β)) : AList β :=
  xs.foldl (fun acc kv => ainsert acc kv.1 kv.2) m

/-! ## Normalizer (backend/normalizer.py) -/

structure Normalizer where
  mapping : AList String

/-- `Normalizer.__init__`: `{k.lower(): v.lower() for k, v in mapping.items()}`. -/
def Normalizer.ofDict (raw : List (String × String)) : Normalizer :=
  ⟨raw.foldl (fun acc kv => ainsert acc (pyLower kv.1) (pyLower kv.2)) []⟩

/-- `Normalizer.normalize`. -/
def Normalizer.normalize (n : Normalizer) (term : String) : String :=
  let t := pyLower (pyStrip term)
  if t = "" then t else (alookup n.mapping t).getD t

/-- `load_default_mapping` (backend/normalizer.py): the built-in synonym set. -/
def load_default_mapping : List (String × String) :=
  [("arroz", "arroz 5kg tipo 1"),
   ("feijao", "feijão carioca 1kg"),
   ("feijão", "feijão carioca 1kg"),
   ("oleo", "óleo de soja 900ml"),
   ("óleo", "óleo de soja 900ml"),
   ("cafe", "café 500g"),
   ("café", "café 500g"),
   ("acucar", "açúcar 1kg"),
   ("açucar", "açúcar 1kg"),
   ("açúcar", "açúcar 1kg"),
   ("trigo", "farinha de trigo 1kg"),
   ("leite", "leite longa vida 1l")]

/-- The normalizer built from the default mapping, as `main.py` does with
`Normalizer(load_default_mapping())`. -/
def defaultNormalizer : Normalizer :=
  Normalizer.ofDict load_default_mapping

/-! ## Site rules (backend/agent.py) -/

def defaultCardSelectors : List String :=
  [".product", ".product-card", ".produto", ".item", ".offer", ".oferta", ".card", ".promo"]

def defaultNameSelectors : List String :=
  [".name", ".title", ".product-name", ".descricao", ".desc", "h3", "h2", ".titulo"]

def defaultPriceSelectors : List String :=
  [".price", ".preco", ".valor", ".price-current", ".value", ".preco-atual"]

structure SiteRule where
  domain : String
  paths : List String := ["/"]
  search_templates : List String := []
  card_selectors : List String := defaultCardSelectors
  name_selectors : List String := defaultNameSelectors
  price_selectors : List String := defaultPriceSelectors

def DEFAULT_RULES : List SiteRule :=
  [{ domain := "kawakami.com.br", paths := ["/", "/ofertas", "/promocoes", "/promocao"] },
   { domain := "tauste.com.br", paths := ["/marilia/", "/ofertas", "/promocoes"] },
   { domain := "amigao.com", paths := ["/", "/ofertas", "/promocoes"] },
   { domain := "confianca.com.br", paths := ["/marilia", "/ofertas", "/promocoes"] }]

/-- `choose_rule`: first rule whose domain is a substring of the URL. -/
def choose_rule (url : String) (rules : List SiteRule) : Option SiteRule :=
  rules.find? (fun r => pySubstr r.domain url)

/-! ## The BeautifulSoup collaborator

BeautifulSoup itself is an external library; a parsed page is modelled
abstractly by the two capabilities the extraction code uses: CSS selection
of card elements (each card offering `select_one` and `get_text`) and the
list of text nodes (each with its own text and its parent's text). -/

structure TextEl where
  stripText : String
  spaceText : String

structure Card where
  selectOne : String → Option TextEl
  text : String

structure TextNode where
  text : String
  parent : Option String

structure Soup where
  select : String → List Card
  textNodes : List TextNode

/-! ## `extract_from_cards` (backend/agent.py lines 138-172) -/

/-- The card's name: first name selector yielding an element with non-empty
stripped text (the `" "`-joined text is then used), else the card's own text
truncated to 120 characters. -/
def cardName (rule : SiteRule) (card : Card) : String :=
  match rule.name_selectors.findSome? (fun ns =>
      match card.selectOne ns with
      | some el => if el.stripText ≠ "" then some el.spaceText else none
      | none => none) with
  | some t => t
  | none => takeChars 120 card.text

/-- The card's price: first price selector whose element's text parses as a
currency value, else `parse_brl` of the whole card text. -/
def cardPrice (rule : SiteRule) (card : Card) : Option ℚ :=
  match rule.price_selectors.findSome? (fun ps =>
      (card.selectOne ps).bind fun elp => parse_brl elp.spaceText) with
  | some p => some p
  | none => parse_brl card.text

/-- Body of the per-card loop: `if name_text and price_val is not None:
items[name_text.lower()] = float(price_val)`. -/
def processCard (rule : SiteRule) (items : AList ℚ) (card : Card) : AList ℚ :=
  match cardPrice rule card with
  | some p => if cardName rule card ≠ "" then ainsert items (pyLower (cardName rule card)) p else items
  | none => items

/-- The selector loop with its `if items: break`. -/
def cardsLoop (soup : Soup) (rule : SiteRule) : List String → AList ℚ → AList ℚ
  | [], items => items
  | sel :: rest, items =>
      let items2 := (soup.select sel).foldl (processCard rule) items
      if items2 = [] then cardsLoop soup rule rest items2 else items2

def extract_from_cards (soup : Soup) (rule : SiteRule) : AList ℚ :=
  cardsLoop soup rule rule.card_selectors []

/-! ## `extract_fallback` (backend/agent.py lines 175-196) -/

/-- `CURRENCY_RE.sub("", s)`: delete every (leftmost-first) match of the
currency pattern.  The fuel argument starts at the input length, which bounds
the number of steps since every step consumes at least one character. -/
def currencySubList : Nat → List Char → List Char
  | 0, cs => cs
  | _ + 1, [] => []
  | fuel + 1, c :: rest =>
      match matchBrlAt (c :: rest) with
      | some (_, _, _, remaining) => currencySubList fuel remaining
      | none => c :: currencySubList fuel rest

def currencySub (s : String) : String :=
  ⟨currencySubList s.data.length s.data⟩

/-- The loop of `extract_fallback`: text nodes containing `R$` (the
`find_all(string=re.compile(r"R\$"))` filter), price from the node text,
name from the parent text with currency matches removed; stop once the
item dict has reached the limit of 100 entries. -/
def fallbackLoop : List TextNode → AList ℚ → AList ℚ
  | [], items => items
  | el :: rest, items =>
      if pySubstr "R$" el.text then
        match parse_brl (pyStrip el.text) with
        | none => fallbackLoop rest items
        | some price =>
            match el.parent with
            | none => fallbackLoop rest items
            | some ptxt =>
                if ptxt = "" then fallbackLoop rest items
                else
                  let name := pyStrip (currencySub ptxt)
                  if name.length < 3 then fallbackLoop rest items
                  else
                    let items2 := ainsert items (pyLower name) price
                    if 100 ≤ items2.length then items2 else fallbackLoop rest items2
      else fallbackLoop rest items

def extract_fallback (soup : Soup) : AList ℚ :=
  fallbackLoop soup.textNodes []

/-- The two-tier extraction `if rule: items = extract_from_cards(...);
if not items: items = extract_fallback(...)` shared by every retrieval path. -/
def combinedExtract (rule : Option SiteRule) (soup : Soup) : AList ℚ :=
  let items := match rule with
    | some r => extract_from_cards soup r
    | none => []
  if items = [] then extract_fallback soup else items

/-! ## `fetch_prices_for_url` (backend/agent.py lines 199-229)

The HTTP client and HTML parser are passed in as capabilities
(`fetch url = some markup` on success, `none` models `fetch_html` returning
`None` after a swallowed error; `parse` is `BeautifulSoup(html, "html.parser")`).
`load_site_rules()` reads external configuration, so the loaded rule list is
a parameter.  Alongside the extracted items the function returns the trace of
URLs handed to the fetch capability, in call order, which is what the claims
about fetch calls talk about. -/

/-- The target URL the path loop fetches for path `p`:
`base + p if not base.endswith(p) else base`. -/
def pathTarget (base p : String) : String :=
  if pyEndsWith base p then base else base ++ p

/-- The `for p in paths` loop: fetch each target until an extraction yields
items.  Returns the items and the fetch trace of the loop. -/
def pathsLoop (fetch : String → Option String) (parse : String → Soup)
    (rule : Option SiteRule) (base : String) :
    List String → AList ℚ × List String
  | [] => ([], [])
  | p :: ps =>
      let target := pathTarget base p
      match fetch target with
      | none =>
          let r := pathsLoop fetch parse rule base ps
          (r.1, target :: r.2)
      | some html =>
          let its := combinedExtract rule (parse html)
          if its = [] then
            let r := pathsLoop fetch parse rule base ps
            (r.1, target :: r.2)
          else (its, [target])

def fetch_prices_for_url (fetch : String → Option String) (parse : String → Soup)
    (rules : List SiteRule) (url : String) : AList ℚ × List String :=
  let rule := choose_rule url rules
  let paths := match rule with
    | some r => r.paths
    | none => ["/"]
  let base := rstripSlashes url
  match fetch base with
  | some html =>
      let items := combinedExtract rule (parse html)
      if items = [] then
        let r := pathsLoop fetch parse rule base paths
        (r.1, base :: r.2)
      else (items, [base])
  | none =>
      let r := pathsLoop fetch parse rule base paths
      (r.1, base :: r.2)

/-! ## `_build_search_urls` (backend/agent.py lines 292-303)

`urllib.parse.quote_plus` and `urllib.parse.urljoin` are standard-library
collaborators; they are modelled below for the URL shapes this program
builds (an `http(s)://host/...` base and a relative or absolute template). -/

def hexDigit (n : Nat) : Char :=
  if n < 10 then Char.ofNat (48 + n) else Char.ofNat (55 + n)

/-- UTF-8 bytes of a code point. -/
def utf8Bytes (c : Char) : List Nat :=
  let n := c.toNat
  if n < 0x80 then [n]
  else if n < 0x800 then [0xC0 + n / 0x40, 0x80 + n % 0x40]
  else if n < 0x10000 then [0xE0 + n / 0x1000, 0x80 + (n / 0x40) % 0x40, 0x80 + n % 0x40]
  else [0xF0 + n / 0x40000, 0x80 + (n / 0x1000) % 0x40, 0x80 + (n / 0x40) % 0x40, 0x80 + n % 0x40]

def isQuotePlusSafe (c : Char) : Bool :=
  isDigitCh c || (97 ≤ c.toNat && c.toNat ≤ 122) || (65 ≤ c.toNat && c.toNat ≤ 90) ||
    c = '_' || c = '.' || c = '-' || c = '~'

/-- `urllib.parse.quote_plus`: spaces become `+`, unsafe characters become
percent-encoded UTF-8 bytes. -/
def quotePlus (s : String) : String :=
  ⟨(s.data.map (fun c =>
      if c = ' ' then ['+']
      else if isQuotePlusSafe c then [c]
      else ((utf8Bytes c).map (fun b => ['%', hexDigit (b / 16), hexDigit (b % 16)])).flatten)).flatten⟩

/-- Replace every occurrence of `needle` (non-empty) by `repl`; fuel starts
at the input length. -/
def replaceAllSub (needle repl : List Char) : Nat → List Char → List Char
  | 0, cs => cs
  | _ + 1, [] => []
  | fuel + 1, c :: rest =>
      if listStartsWith needle (c :: rest) then
        repl ++ replaceAllSub needle repl fuel ((c :: rest).drop needle.length)
      else c :: replaceAllSub needle repl fuel rest

/-- `tpl.format(q=q)` for templates whose only placeholder is `{q}`. -/
def formatQ (tpl q : String) : String :=
  ⟨replaceAllSub "{q}".data q.data tpl.data.length tpl.data⟩

/-- First index at which `needle` occurs in `cs`. -/
def findSubIdx (needle : List Char) : List Char → Option Nat
  | [] => if needle.isEmpty then some 0 else none
  | c :: rest =>
      if listStartsWith needle (c :: rest) then some 0
      else (findSubIdx needle rest).map (· + 1)

/-- `urllib.parse.urljoin` for an absolute `scheme://host[/path]` base: an
absolute-path reference replaces the path, any other relative reference is
resolved against the base's directory. -/
def urljoin (base rel : String) : String :=
  match findSubIdx "://".data base.data with
  | none => rel
  | some i =>
      let afterScheme := base.data.drop (i + 3)
      let hostLen := (afterScheme.takeWhile (fun c => c ≠ '/')).length
      let root := base.data.take (i + 3 + hostLen)
      if pyStartsWith rel "/" then ⟨root ++ rel.data⟩
      else
        let path := afterScheme.drop hostLen
        let upToLastSlash := (path.reverse.dropWhile (fun c => c ≠ '/')).reverse
        let dir := if upToLastSlash = [] then ['/'] else upToLastSlash
        ⟨root ++ dir ++ rel.data⟩

def build_search_urls (base_url : String) (rule : SiteRule) (term : String) : List String :=
  rule.search_templates.map (fun tpl =>
    let candidate := formatQ tpl (quotePlus term)
    if pyStartsWith candidate "http" then candidate else urljoin base_url candidate)

/-! ## `_expand_queries` (backend/agent.py lines 306-333) -/

/-- The `deaccent` helper: `unicodedata.normalize('NFD', s)` followed by
dropping combining marks (category `Mn`), modelled for the Latin letters
with precomposed accents plus the combining-mark block itself. -/
def deaccentChar (c : Char) : List Char :=
  if 0x300 ≤ c.toNat && c.toNat < 0x370 then []
  else
    match c with
    | 'á' => ['a'] | 'à' => ['a'] | 'â' => ['a'] | 'ã' => ['a'] | 'ä' => ['a']
    | 'é' => ['e'] | 'è' => ['e'] | 'ê' => ['e'] | 'ë' => ['e']
    | 'í' => ['i'] | 'ì' => ['i'] | 'î' => ['i'] | 'ï' => ['i']
    | 'ó' => ['o'] | 'ò' => ['o'] | 'ô' => ['o'] | 'õ' => ['o'] | 'ö' => ['o']
    | 'ú' => ['u'] | 'ù' => ['u'] | 'û' => ['u'] | 'ü' => ['u']
    | 'ç' => ['c'] | 'ñ' => ['n']
    | 'Á' => ['A'] | 'À' => ['A'] | 'Â' => ['A'] | 'Ã' => ['A'] | 'Ä' => ['A']
    | 'É' => ['E'] | 'È' => ['E'] | 'Ê' => ['E'] | 'Ë' => ['E']
    | 'Í' => ['I'] | 'Ì' => ['I'] | 'Î' => ['I'] | 'Ï' => ['I']
    | 'Ó' => ['O'] | 'Ò' => ['O'] | 'Ô' => ['O'] | 'Õ' => ['O'] | 'Ö' => ['O']
    | 'Ú' => ['U'] | 'Ù' => ['U'] | 'Û' => ['U'] | 'Ü' => ['U']
    | 'Ç' => ['C'] | 'Ñ' => ['N']
    | other => [other]

def deaccent (s : String) : String :=
  ⟨(s.data.map deaccentChar).flatten⟩

def dedupExactGo : List String → List String → List String
  | _, [] => []
  | seen, x :: xs =>
      if x ∈ seen then dedupExactGo seen xs else x :: dedupExactGo (x :: seen) xs

/-- The elements of the Python set `{deaccent(x) for x in base}`.  A Python
set iterates in an unspecified (hash-dependent) order; the model fixes the
first-occurrence order, and every property proved about the expansion below
is insensitive to the order inside this group. -/
def dedupExact (l : List String) : List String :=
  dedupExactGo [] l

def ciDedupGo : List String → List String → List String
  | _, [] => []
  | seen, x :: xs =>
      if pyLower x ∈ seen then ciDedupGo seen xs else x :: ciDedupGo (pyLower x :: seen) xs

/-- The `# unique preserve order` loop: keep the first occurrence of each
case-insensitive key. -/
def ciDedup (l : List String) : List String :=
  ciDedupGo [] l

/-- `base = [t0]` then `if canon and canon not in base: base.append(canon)`. -/
def expandBase (mapping : List (String × String)) (t0 : String) : List String :=
  let base0 := [t0]
  match alookup mapping (pyLower t0) with
  | some canon => if canon ≠ "" ∧ canon ∉ base0 then base0 ++ [canon] else base0
  | none => base0

/-- The body of `_expand_queries` for a single term, generalised over the
synonym mapping (the source always passes `load_default_mapping()`).
Returns `none` when the stripped term is empty (the `continue`), otherwise
the dict key `t0` and its variant list. -/
def expandTermWith (mapping : List (String × String)) (t : String) :
    Option (String × List String) :=
  let t0 := pyStrip t
  if t0 = "" then none
  else
    let base1 := expandBase mapping t0
    let base2 := base1 ++ dedupExact (base1.map deaccent)
    some (t0, ciDedup base2)

def expand_queries (terms : List String) : AList (List String) :=
  terms.foldl (fun expanded t =>
    match expandTermWith load_default_mapping t with
    | none => expanded
    | some r => ainsert expanded r.1 r.2) []

/-! ## `search_prices_for_terms_http` (backend/agent.py lines 336-363) -/

/-- One candidate URL: fetch, parse, structured-then-fallback extraction;
on a non-empty result the price of its first item
(`next(iter(items.values()))`). -/
def tryUrl (fetch : String → Option String) (parse : String → Soup)
    (rule : SiteRule) (url : String) : Option ℚ :=
  match fetch url with
  | none => none
  | some html =>
      let soup := parse html
      let items0 := extract_from_cards soup rule
      let items := if items0 = [] then extract_fallback soup else items0
      match items with
      | [] => none
      | e :: _ => some e.2

/-- The `for url in _build_search_urls(...)` loop with its break. -/
def urlsLoop (tryU : String → Option ℚ) : List String → Option ℚ
  | [] => none
  | u :: us =>
      match tryU u with
      | some p => some p
      | none => urlsLoop tryU us

/-- The `for q in term_queries.get(term, [term])` loop with its break. -/
def queriesLoop (tryU : String → Option ℚ) (buildU : String → List String) :
    List String → Option ℚ
  | [] => none
  | q :: qs =>
      match urlsLoop tryU (buildU q) with
      | some p => some p
      | none => queriesLoop tryU buildU qs

def search_prices_for_terms_http (fetch : String → Option String) (parse : String → Soup)
    (rules : List SiteRule) (base_url : String) (terms : List String) : AList ℚ :=
  match choose_rule base_url rules with
  | none => []
  | some rule =>
      if rule.search_templates = [] then []
      else
        let term_queries := expand_queries terms
        terms.foldl (fun out term =>
          match queriesLoop (tryUrl fetch parse rule)
              (fun q => build_search_urls base_url rule q)
              ((alookup term_queries term).getD [term]) with
          | some p => ainsert out (pyLower term) p
          | none => out) []

/-! ## `merge_price_db` (backend/scraper.py lines 98-105) -/

abbrev PriceDb := AList (AList ℚ)

/-- Canonicalise the item names of one update batch. -/
def canonItems (n : Normalizer) (items : List (String × ℚ)) : List (String × ℚ) :=
  items.map (fun ip => (n.normalize ip.1, ip.2))

/-- One iteration of the market loop: `target = db.setdefault(market, {})`
followed by `target[normalizer.normalize(item)] = float(price)` for each
item.  (`setdefault` appends the market at the end when absent and leaves it
in place when present, which is `ainsert` at the market key.) -/
def mergeMarket (db : PriceDb) (mk : String) (items : List (String × ℚ)) (n : Normalizer) :
    PriceDb :=
  ainsert db mk (writeAll ((alookup db mk).getD []) (canonItems n items))

/-- `merge_price_db(current, updates, normalizer)`.  The initial
`{mk: items.copy() for ...}` is a (pure) copy of `current`. -/
def merge_price_db (current : PriceDb) (updates : List (String × List (String × ℚ)))
    (n : Normalizer) : PriceDb :=
  updates.foldl (fun db mu => mergeMarket db mu.1 mu.2 n) current

/-! ## `run_quote` (backend/main.py lines 136-185) -/

structure QuoteEntry where
  item_buscado : String
  item_encontrado : String
  preco : ℚ
deriving DecidableEq

def notFoundSentinel : String := "Item não encontrado neste mercado"

/-- Python's `round(x, 2)` on the exact value: round half to even at two
decimal places. -/
def roundHalfEven (x : ℚ) : ℤ :=
  let f := ⌊x⌋
  let r := x - f
  if r < 1 / 2 then f
  else if 1 / 2 < r then f + 1
  else if f % 2 = 0 then f else f + 1

def pyRound2 (x : ℚ) : ℚ :=
  (roundHalfEven (x * 100) : ℚ) / 100

/-- Body of the `for item_buscado in itens` loop: normalise the term, skip
it when empty, otherwise record the first database item containing it (and
add its price to the running total) or the not-found sentinel with price 0. -/
def quoteStep (normalizer : Option Normalizer) (precos : AList ℚ)
    (acc : List QuoteEntry × ℚ) (item : String) : List QuoteEntry × ℚ :=
  let termo0 := pyLower (pyStrip item)
  let termo := match normalizer with
    | some n => n.normalize termo0
    | none => termo0
  if termo = "" then acc
  else
    match precos.find? (fun e => pySubstr termo e.1) with
    | some e => (acc.1 ++ [⟨item, e.1, e.2⟩], acc.2 + e.2)
    | none => (acc.1 ++ [⟨item, notFoundSentinel, 0⟩], acc.2)

def quoteMarket (itens : List String) (normalizer : Option Normalizer) (precos : AList ℚ) :
    List QuoteEntry × ℚ :=
  itens.foldl (quoteStep normalizer precos) ([], 0)

/-- `run_quote`: the pair of `cotacoes_detalhadas` and `totais_por_mercado`
(the surrounding `QuoteResult` additionally carries a wall-clock timestamp
and the constant `source`/`currency` tags, which live outside the model). -/
def run_quote (itens : List String) (price_db : PriceDb) (normalizer : Option Normalizer) :
    AList (List QuoteEntry) × AList ℚ :=
  price_db.foldl (fun acc mp =>
    let r := quoteMarket itens normalizer mp.2
    (ainsert acc.1 mp.1 r.1, ainsert acc.2 mp.1 (pyRound2 r.2))) ([], [])

/-! ## Declarative spec-side definitions

These follow the wording of the specification (not the code) and are what the
code-level definitions are compared against. -/

/-- Spec: "`[0-9]+`" — a non-empty run of digits. -/
def IsPlainInt (gi : List Char) : Prop :=
  gi ≠ [] ∧ ∀ c ∈ gi, isDigitCh c = true

/-- Spec: "thousands-grouped integer" — 1 to 3 digits followed by
`.`-separated 3-digit blocks. -/
def IsGroupedInt (gi : List Char) : Prop :=
  ∃ (b0 : List Char) (blocks : List (List Char)),
    gi = b0 ++ (blocks.map (fun b => '.' :: b)).flatten ∧
    1 ≤ b0.length ∧ b0.length ≤ 3 ∧ (∀ c ∈ b0, isDigitCh c = true) ∧
    ∀ b ∈ blocks, b.length = 3 ∧ ∀ c ∈ b, isDigitCh c = true

def IsIntPart (gi : List Char) : Prop :=
  IsPlainInt gi ∨ IsGroupedInt gi

/-- Spec: a substring in the Brazilian currency format
`R$<thousands-grouped integer>,<2-digit fraction>` starts at the head of
`cs`, with integer part `g1` and fraction digits `d1 d2`. -/
def BrlMatchAt (cs : List Char) (g1 : List Char) (d1 d2 : Char) : Prop :=
  ∃ ws rest, cs = 'R' :: '$' :: (ws ++ g1 ++ ',' :: d1 :: d2 :: rest) ∧
    (∀ c ∈ ws, isPySpace c = true) ∧ IsIntPart g1 ∧
    isDigitCh d1 = true ∧ isDigitCh d2 = true

/-- The items one card selector contributes (each card scanned from an empty
running dict, which is what the loop does up to the first productive
selector). -/
def selResult (soup : Soup) (rule : SiteRule) (sel : String) : AList ℚ :=
  (soup.select sel).foldl (processCard rule) []

/-- Spec for `extract_from_cards`: the result of the first card selector, in
priority order, that yields any items (empty if none does). -/
def firstSelectorResult (soup : Soup) (rule : SiteRule) : AList ℚ :=
  match rule.card_selectors.findSome? (fun sel =>
      if selResult soup rule sel = [] then none else some (selResult soup rule sel)) with
  | some r => r
  | none => []

/-- `paths = rule.paths if rule else ["/"]`. -/
def rulePaths (rule : Option SiteRule) : List String :=
  match rule with
  | some r => r.paths
  | none => ["/"]

/-- Does fetching `u` produce markup whose combined extraction is non-empty? -/
def fetchSucceeds (fetch : String → Option String) (parse : String → Soup)
    (rule : Option SiteRule) (u : String) : Bool :=
  match fetch u with
  | some html => !(combinedExtract rule (parse html)).isEmpty
  | none => false

/-- Spec for the path-probing trace: each URL is tried in turn up to and
including the first successful one. -/
def probeTrace (succ : String → Bool) : List String → List String
  | [] => []
  | u :: us => if succ u then [u] else u :: probeTrace succ us

/-- Spec for search-mode retrieval: per term, the flat candidate list
(variant-by-variant, template-by-template) is scanned for the first
candidate whose extraction yields items, and that extraction's first item
price becomes the term's match; a term with no successful candidate
contributes nothing. -/
def searchSpec (fetch : String → Option String) (parse : String → Soup)
    (rules : List SiteRule) (base_url : String) (terms : List String) : AList ℚ :=
  match choose_rule base_url rules with
  | none => []
  | some rule =>
      if rule.search_templates = [] then []
      else
        terms.foldl (fun out term =>
          match (((alookup (expand_queries terms) term).getD [term]).map
              (fun q => build_search_urls base_url rule q)).flatten.findSome?
              (tryUrl fetch parse rule) with
          | some p => ainsert out (pyLower term) p
          | none => out) []

/-- The per-market query term of a requested item:
`item.strip().lower()` then, when a normalizer is given, its `normalize`. -/
def termOf (normalizer : Option Normalizer) (item : String) : String :=
  match normalizer with
  | some n => n.normalize (pyLower (pyStrip item))
  | none => pyLower (pyStrip item)

def sumPrecos (es : List QuoteEntry) : ℚ :=
  (es.map QuoteEntry.preco).sum

/-- "All keys lowercased". -/
def LowerStr (s : String) : Prop :=
  pyLower s = s

instance (s : String) : Decidable (LowerStr s) :=
  inferInstanceAs (Decidable (pyLower s = s))

/-! ## Concrete fixtures used by the examples and witnesses -/

def exampleDb : PriceDb :=
  [("mercadoA", [("arroz 5kg tipo 1", (279 : ℚ) / 10), ("feijão carioca 1kg", (91 : ℚ) / 10)])]

def exampleItens : List String := ["arroz", "feijão"]

def emptySoup : Soup := { select := fun _ => [], textNodes := [] }

def exRuleX : SiteRule := { domain := "a", paths := ["/x"] }

def exCard : Card :=
  { selectOne := fun s =>
      if s = ".name" then some ⟨"Arroz Agulha", "Arroz Agulha"⟩
      else if s = ".price" then some ⟨"R$ 5,00", "R$ 5,00"⟩
      else none,
    text := "Arroz Agulha R$ 5,00" }

def exSoupCards : Soup :=
  { select := fun s => if s = ".product" then [exCard] else [], textNodes := [] }

def exRuleCards : SiteRule := { domain := "m" }

def exRuleSearch : SiteRule := { domain := "m", search_templates := ["/busca?q={q}"] }

/-! # Theorems

## Association-list (dict) lemmas -/

theorem alookup_ainsert_self {β : Type} (m : AList β) (k : String) (v : β) :
    alookup (ainsert m k v) k = some v := by
  induction m with
  | nil => simp [ainsert, alookup]
  | cons hd tl ih =>
      obtain ⟨k', v'⟩ := hd
      by_cases h : k' = k
      · subst h
        simp [ainsert, alookup]
      · simp [ainsert, alookup, h, ih]

theorem alookup_ainsert_ne {β : Type} (m : AList β) {k' k : String} (v : β) (h : k' ≠ k) :
    alookup (ainsert m k' v) k = alookup m k := by
  induction m with
  | nil => simp [ainsert, alookup, h]
  | cons hd tl ih =>
      obtain ⟨k2, v2⟩ := hd
      by_cases h2 : k2 = k'
      · subst h2
        simp [ainsert, alookup, h]
      · by_cases h3 : k2 = k
        · subst h3
          simp [ainsert, alookup, h2, Ne.symm h]
        · simp [ainsert, alookup, h2, h3, ih]

theorem ainsert_eq_of_alookup {β : Type} {m : AList β} {k : String} {v : β}
    (h : alookup m k = some v) : ainsert m k v = m := by
  induction m with
  | nil => simp [alookup] at h
  | cons hd tl ih =>
      obtain ⟨k', v'⟩ := hd
      by_cases h2 : k' = k
      · subst h2
        simp [alookup] at h
        simp [ainsert, h]
      · simp [alookup, h2] at h
        simp [ainsert, h2, ih h]

theorem ainsert_ainsert_self {β : Type} (m : AList β) (k : String) (v w : β) :
    ainsert (ainsert m k v) k w = ainsert m k w := by
  induction m with
  | nil => simp [ainsert]
  | cons hd tl ih =>
      obtain ⟨k', v'⟩ := hd
      by_cases h : k' = k
      · subst h
        simp [ainsert]
      · simp [ainsert, h, ih]

theorem mem_akeys_iff {β : Type} {m : AList β} {k : String} :
    k ∈ akeys m ↔ ∃ v, (k, v) ∈ m := by
  constructor
  · intro h
    obtain ⟨⟨k', v⟩, hm, he⟩ := List.mem_map.1 h
    exact ⟨v, by simpa [he.symm] using hm⟩
  · rintro ⟨v, hv⟩
    exact List.mem_map.2 ⟨(k, v), hv, rfl⟩

theorem mem_akeys_ainsert_self {β : Type} (m : AList β) (k : String) (v : β) :
    k ∈ akeys (ainsert m k v) := by
  induction m with
  | nil => simp [ainsert, akeys]
  | cons hd tl ih =>
      obtain ⟨k', v'⟩ := hd
      by_cases h : k' = k
      · subst h
        simp [ainsert, akeys]
      · simpa [ainsert, akeys, h] using Or.inr (by simpa [akeys] using ih)

theorem mem_akeys_ainsert_of_mem {β : Type} {m : AList β} {k2 : String} (k : String) (v : β)
    (h : k2 ∈ akeys m) : k2 ∈ akeys (ainsert m k v) := by
  induction m with
  | nil => simp [akeys] at h
  | cons hd tl ih =>
      obtain ⟨k', v'⟩ := hd
      by_cases h2 : k' = k
      · subst h2
        simpa [ainsert, akeys] using (by simpa [akeys] using h)
      · simp only [akeys, List.map_cons, List.mem_cons] at h
        rcases h with h | h
        · simp [ainsert, h2, akeys, h]
        · simp only [ainsert, h2, if_neg]
          simpa [akeys] using Or.inr (by simpa [akeys] using ih h)

theorem ainsert_comm {β : Type} {m : AList β} {k k2 : String} (v w : β)
    (hne : k ≠ k2) (hk : k ∈ akeys m) :
    ainsert (ainsert m k v) k2 w = ainsert (ainsert m k2 w) k v := by
  induction m with
  | nil => simp [akeys] at hk
  | cons hd tl ih =>
      obtain ⟨k', v'⟩ := hd
      by_cases h1 : k' = k
      · subst h1
        simp [ainsert, hne, Ne.symm hne]
      · by_cases h2 : k' = k2
        · subst h2
          simp [ainsert, h1, Ne.symm hne]
        · have hk' : k ∈ akeys tl := by
            simp only [akeys, List.map_cons, List.mem_cons] at hk
            rcases hk with h | h
            · exact absurd h.symm h1
            · simpa [akeys] using h
          simp [ainsert, h1, h2, ih hk']

theorem mem_ainsert {β : Type} {m : AList β} {k : String} {v : β} {x : String × β}
    (h : x ∈ ainsert m k v) : x ∈ m ∨ x = (k, v) := by
  induction m with
  | nil => simpa [ainsert] using h
  | cons hd tl ih =>
      obtain ⟨k', v'⟩ := hd
      by_cases h2 : k' = k
      · subst h2
        rcases (by simpa [ainsert] using h : x = (k', v) ∨ x ∈ tl) with h | h
        · exact Or.inr h
        · exact Or.inl (List.mem_cons_of_mem _ h)
      · rcases (by simpa [ainsert, h2] using h : x = (k', v') ∨ x ∈ ainsert tl k v) with h | h
        · exact Or.inl (by simp [h])
        · rcases ih h with h | h
          · exact Or.inl (List.mem_cons_of_mem _ h)
          · exact Or.inr h

theorem writeAll_cons {β : Type} (m : AList β) (kv : String × β) (xs : List (String × β)) :
    writeAll m (kv :: xs) = writeAll (ainsert m kv.1 kv.2) xs := rfl

theorem alookup_writeAll_not_mem {β : Type} {xs : List (String × β)} {k : String}
    (m : AList β) (h : k ∉ xs.map Prod.fst) :
    alookup (writeAll m xs) k = alookup m k := by
  induction xs generalizing m with
  | nil => rfl
  | cons kv xs ih =>
      simp only [List.map_cons, List.mem_cons, not_or] at h
      rw [writeAll_cons, ih _ h.2, alookup_ainsert_ne _ _ (Ne.symm h.1)]

theorem mem_akeys_writeAll {β : Type} {m : AList β} {k : String} (xs : List (String × β))
    (h : k ∈ akeys m) : k ∈ akeys (writeAll m xs) := by
  induction xs generalizing m with
  | nil => exact h
  | cons kv xs ih =>
      rw [writeAll_cons]
      exact ih (mem_akeys_ainsert_of_mem _ _ h)

theorem writeAll_ainsert_mem {β : Type} {xs : List (String × β)} {k : String}
    (m : AList β) (v : β) (hmem : k ∈ xs.map Prod.fst) (hk : k ∈ akeys m) :
    writeAll (ainsert m k v) xs = writeAll m xs := by
  induction xs generalizing m v with
  | nil => simp at hmem
  | cons kv xs ih =>
      obtain ⟨k2, w⟩ := kv
      by_cases h2 : k2 = k
      · subst h2
        rw [writeAll_cons, writeAll_cons]
        simp only
        rw [ainsert_ainsert_self]
      · have hmem' : k ∈ xs.map Prod.fst := by
          simpa [Ne.symm h2] using hmem
        rw [writeAll_cons, writeAll_cons]
        simp only
        rw [ainsert_comm _ _ (fun h => h2 h.symm) hk,
          ih (ainsert m k2 w) v hmem' (mem_akeys_ainsert_of_mem _ _ hk)]

theorem writeAll_idem {β : Type} (m : AList β) (xs : List (String × β)) :
    writeAll (writeAll m xs) xs = writeAll m xs := by
  induction xs generalizing m with
  | nil => rfl
  | cons kv xs ih =>
      obtain ⟨k, v⟩ := kv
      rw [writeAll_cons, writeAll_cons]
      simp only
      by_cases hmem : k ∈ xs.map Prod.fst
      · rw [writeAll_ainsert_mem _ _ hmem
          (mem_akeys_writeAll xs (mem_akeys_ainsert_self m k v))]
        exact ih _
      · rw [ainsert_eq_of_alookup
          (by rw [alookup_writeAll_not_mem _ hmem]; exact alookup_ainsert_self m k v)]
        exact ih _

theorem find?_append {α : Type} (p : α → Bool) (l1 l2 : List α) :
    List.find? p (l1 ++ l2) = (List.find? p l1).orElse (fun _ => List.find? p l2) := by
  induction l1 with
  | nil => simp
  | cons a l1 ih =>
      by_cases h : p a
      · simp [List.find?_cons, h, Option.orElse]
      · simp only [List.cons_append, List.find?_cons]
        simp only [Bool.not_eq_true] at h
        simp [h, ih]

theorem alookup_writeAll {β : Type} (m : AList β) (xs : List (String × β)) (k : String) :
    alookup (writeAll m xs) k =
      match xs.reverse.find? (fun kv => decide (kv.1 = k)) with
      | some kv => some kv.2
      | none => alookup m k := by
  induction xs generalizing m with
  | nil => rfl
  | cons kv xs ih =>
      rw [writeAll_cons, ih]
      rw [List.reverse_cons, find?_append]
      cases hf : xs.reverse.find? (fun kv => decide (kv.1 = k)) with
      | some kv' => simp [Option.orElse]
      | none =>
          by_cases hk : kv.1 = k
          · simp [Option.orElse, List.find?_cons, hk, alookup_ainsert_self]
          · simp [Option.orElse, List.find?_cons, hk, alookup_ainsert_ne _ _ hk]

theorem alookup_mem {β : Type} {m : AList β} {k : String} {v : β}
    (h : alookup m k = some v) : (k, v) ∈ m := by
  induction m with
  | nil => simp [alookup] at h
  | cons hd tl ih =>
      obtain ⟨k', v'⟩ := hd
      by_cases h2 : k' = k
      · subst h2
        simp [alookup] at h
        simp [h]
      · simp only [alookup, if_neg h2] at h
        exact List.mem_cons_of_mem _ (ih h)

theorem mem_akeys_ainsert_elim {β : Type} {m : AList β} {k k0 : String} {v : β}
    (h : k ∈ akeys (ainsert m k0 v)) : k ∈ akeys m ∨ k = k0 := by
  rcases mem_akeys_iff.1 h with ⟨w, hw⟩
  rcases mem_ainsert hw with h2 | h2
  · exact Or.inl (mem_akeys_iff.2 ⟨w, h2⟩)
  · exact Or.inr (congrArg Prod.fst h2)

theorem mem_writeAll {β : Type} {xs : List (String × β)} {x : String × β}
    (m : AList β) (h : x ∈ writeAll m xs) : x ∈ m ∨ x ∈ xs := by
  induction xs generalizing m with
  | nil => exact Or.inl h
  | cons kv xs ih =>
      rw [writeAll_cons] at h
      rcases ih _ h with h2 | h2
      · rcases mem_ainsert h2 with h3 | h3
        · exact Or.inl h3
        · exact Or.inr (by simp [h3])
      · exact Or.inr (List.mem_cons_of_mem _ h2)

theorem alookup_writeAll_last {β : Type} (m : AList β) {xs l1 l2 : List (String × β)}
    {k : String} {v : β} (hx : xs = l1 ++ (k, v) :: l2) (h : k ∉ l2.map Prod.fst) :
    alookup (writeAll m xs) k = some v := by
  subst hx
  have heq : writeAll m (l1 ++ (k, v) :: l2) = writeAll (ainsert (writeAll m l1) k v) l2 := by
    simp [writeAll, List.foldl_append]
  rw [heq, alookup_writeAll_not_mem _ h, alookup_ainsert_self]

/-! ## `merge_price_db`: lemmas and claims C4, C5, C6 -/

theorem merge_price_db_cons (c : PriceDb) (mu : String × List (String × ℚ))
    (rest : List (String × List (String × ℚ))) (n : Normalizer) :
    merge_price_db c (mu :: rest) n = merge_price_db (mergeMarket c mu.1 mu.2 n) rest n := rfl

theorem alookup_merge_not_mem {u : List (String × List (String × ℚ))} {mk : String}
    (c : PriceDb) (n : Normalizer) (h : mk ∉ u.map Prod.fst) :
    alookup (merge_price_db c u n) mk = alookup c mk := by
  induction u generalizing c with
  | nil => rfl
  | cons mu rest ih =>
      simp only [List.map_cons, List.mem_cons, not_or] at h
      rw [merge_price_db_cons, ih _ h.2]
      exact alookup_ainsert_ne _ _ (Ne.symm h.1)

theorem alookup_merge_mem {u : List (String × List (String × ℚ))} {mk : String}
    {items : List (String × ℚ)} (c : PriceDb) (n : Normalizer)
    (hnd : (u.map Prod.fst).Nodup) (hmem : (mk, items) ∈ u) :
    alookup (merge_price_db c u n) mk =
      some (writeAll ((alookup c mk).getD []) (canonItems n items)) := by
  induction u generalizing c with
  | nil => simp at hmem
  | cons mu rest ih =>
      obtain ⟨mk', items'⟩ := mu
      simp only [List.map_cons, List.nodup_cons] at hnd
      rcases List.mem_cons.1 hmem with h | h
      · obtain ⟨h1, h2⟩ := Prod.mk.injEq .. ▸ (by exact Prod.mk.injEq .. ▸ h : (mk, items) = (mk', items'))
        subst h1
        subst h2
        rw [merge_price_db_cons,
          alookup_merge_not_mem _ _ (by simpa using hnd.1)]
        exact alookup_ainsert_self _ _ _
      · have hne : mk' ≠ mk := by
          intro he
          subst he
          exact hnd.1 (List.mem_map.2 ⟨(mk', items), h, rfl⟩)
        rw [merge_price_db_cons, ih _ hnd.2 h]
        simp only [mergeMarket]
        rw [alookup_ainsert_ne _ _ hne]

/-- C4: merging the same updates twice into a database yields the same
database as merging them once — for every current database, update map
(a Python dict, hence with distinct market keys) and normalizer,
`merge(merge(current, updates, n), updates, n) = merge(current, updates, n)`. -/
theorem merge_price_db_idem (current : PriceDb)
    (updates : List (String × List (String × ℚ))) (n : Normalizer)
    (hnd : (updates.map Prod.fst).Nodup) :
    merge_price_db (merge_price_db current updates n) updates n =
      merge_price_db current updates n := by
  induction updates generalizing current with
  | nil => rfl
  | cons mu rest ih =>
      obtain ⟨mk, items⟩ := mu
      simp only [List.map_cons, List.nodup_cons] at hnd
      have hnotmem : mk ∉ rest.map Prod.fst := by simpa using hnd.1
      simp only [merge_price_db_cons]
      set M := merge_price_db (mergeMarket current mk items n) rest n with hM
      have hlk : alookup M mk =
          some (writeAll ((alookup current mk).getD []) (canonItems n items)) := by
        rw [hM, alookup_merge_not_mem _ _ hnotmem]
        exact alookup_ainsert_self _ _ _
      have hmm : mergeMarket M mk items n = M := by
        show ainsert M mk (writeAll ((alookup M mk).getD []) (canonItems n items)) = M
        rw [hlk]
        simp only [Option.getD_some]
        rw [writeAll_idem]
        exact ainsert_eq_of_alookup hlk
      rw [hmm, hM]
      exact ih _ hnd.2

/-- C4 witness: idempotence at a concrete database, update map and the
default normalizer. -/
theorem merge_price_db_idem_witness :
    (((([("m", [("Arroz", (3 : ℚ))])] : List (String × List (String × ℚ))).map
        Prod.fst).Nodup)) ∧
    merge_price_db
        (merge_price_db [("m", [("x", (2 : ℚ))])] [("m", [("Arroz", (3 : ℚ))])]
          defaultNormalizer)
        [("m", [("Arroz", (3 : ℚ))])] defaultNormalizer =
      merge_price_db [("m", [("x", (2 : ℚ))])] [("m", [("Arroz", (3 : ℚ))])]
        defaultNormalizer :=
  ⟨by decide, merge_price_db_idem _ _ _ (by decide)⟩

/-- C5: `merge_price_db` returns a database in which every market absent
from the updates keeps exactly its old binding, while a market present in
the updates is bound to its old mapping overwritten, in order, by the
updates' items under their normalizer-canonicalised names: a canonical name
written by the updates holds the price of its last occurrence, and an item
name not written by the updates keeps its old price.  (The input `current`
itself is untouched: the model is pure and the code writes only to fresh
copies.) -/
theorem merge_price_db_spec (current : PriceDb)
    (updates : List (String × List (String × ℚ))) (n : Normalizer)
    (hnd : (updates.map Prod.fst).Nodup) :
    (∀ mk, mk ∉ updates.map Prod.fst →
        alookup (merge_price_db current updates n) mk = alookup current mk) ∧
    (∀ mk items, (mk, items) ∈ updates →
        alookup (merge_price_db current updates n) mk =
          some (writeAll ((alookup current mk).getD []) (canonItems n items)) ∧
        (∀ k, k ∉ (canonItems n items).map Prod.fst →
            alookup (writeAll ((alookup current mk).getD []) (canonItems n items)) k =
              alookup ((alookup current mk).getD []) k) ∧
        ∀ l1 k v l2, canonItems n items = l1 ++ (k, v) :: l2 →
            k ∉ l2.map Prod.fst →
            alookup (writeAll ((alookup current mk).getD []) (canonItems n items)) k =
              some v) := by
  refine ⟨fun mk h => alookup_merge_not_mem _ _ h, fun mk items hmem => ?_⟩
  refine ⟨alookup_merge_mem _ _ hnd hmem,
    fun k hk => alookup_writeAll_not_mem _ hk,
    fun l1 k v l2 hx h2 => alookup_writeAll_last _ hx h2⟩

/-- C5 witness: the characterisation applied to a concrete merge in which
the update overwrites one canonical entry and leaves another untouched. -/
theorem merge_price_db_spec_witness :
    ((([("m", [("Arroz", (3 : ℚ))])] : List (String × List (String × ℚ))).map
        Prod.fst).Nodup) ∧
    alookup (merge_price_db [("m", [("arroz 5kg tipo 1", (2 : ℚ)), ("sal", 1)])]
        [("m", [("Arroz", (3 : ℚ))])] defaultNormalizer) "m" =
      some (writeAll [("arroz 5kg tipo 1", (2 : ℚ)), ("sal", 1)]
        (canonItems defaultNormalizer [("Arroz", (3 : ℚ))])) := by
  refine ⟨by decide, ?_⟩
  have h := (merge_price_db_spec [("m", [("arroz 5kg tipo 1", (2 : ℚ)), ("sal", 1)])]
    [("m", [("Arroz", (3 : ℚ))])] defaultNormalizer (by decide)).2
    "m" [("Arroz", (3 : ℚ))] (List.Mem.head _)
  simpa using h.1

/-! ## Lowercase invariant: claim C6 -/

theorem toNat_ofNat_valid {n : Nat} (h : n < 0xD800) : (Char.ofNat n).toNat = n := by
  unfold Char.ofNat
  rw [dif_pos (Or.inl h)]
  rfl

theorem pyLowerChar_not_upper (c : Char) :
    ¬(65 ≤ (pyLowerChar c).toNat ∧ (pyLowerChar c).toNat ≤ 90) := by
  unfold pyLowerChar
  by_cases h : 65 ≤ c.toNat ∧ c.toNat ≤ 90
  · rw [if_pos (by simpa using h)]
    rw [toNat_ofNat_valid (by omega)]
    omega
  · rw [if_neg (by simpa using h)]
    exact h

theorem pyLowerChar_idem (c : Char) : pyLowerChar (pyLowerChar c) = pyLowerChar c := by
  have h : ¬((65 ≤ (pyLowerChar c).toNat && (pyLowerChar c).toNat ≤ 90) = true) := by
    simpa using pyLowerChar_not_upper c
  calc pyLowerChar (pyLowerChar c)
      = if 65 ≤ (pyLowerChar c).toNat && (pyLowerChar c).toNat ≤ 90 then
          Char.ofNat ((pyLowerChar c).toNat + 32) else pyLowerChar c := rfl
    _ = pyLowerChar c := if_neg h

theorem LowerStr_pyLower (s : String) : LowerStr (pyLower s) := by
  unfold LowerStr pyLower
  exact congrArg String.mk
    (by rw [List.map_map]; exact List.map_congr_left (fun a _ => pyLowerChar_idem a))

theorem ofDict_values_lower (raw : List (String × String)) :
    ∀ kv ∈ (Normalizer.ofDict raw).mapping, LowerStr kv.2 := by
  have general : ∀ (l : List (String × String)) (acc : AList String),
      (∀ kv ∈ acc, LowerStr kv.2) →
      ∀ kv ∈ l.foldl (fun acc kv => ainsert acc (pyLower kv.1) (pyLower kv.2)) acc,
        LowerStr kv.2 := by
    intro l
    induction l with
    | nil => exact fun acc h => h
    | cons hd tl ih =>
        intro acc h
        apply ih
        intro kv hkv
        rcases mem_ainsert hkv with h2 | h2
        · exact h _ h2
        · rw [h2]
          exact LowerStr_pyLower _
  exact general raw [] (by simp)

theorem normalize_lower (raw : List (String × String)) (t : String) :
    LowerStr ((Normalizer.ofDict raw).normalize t) := by
  show LowerStr (if pyLower (pyStrip t) = "" then pyLower (pyStrip t)
    else (alookup (Normalizer.ofDict raw).mapping (pyLower (pyStrip t))).getD
      (pyLower (pyStrip t)))
  by_cases h : pyLower (pyStrip t) = ""
  · rw [if_pos h]
    exact LowerStr_pyLower _
  · rw [if_neg h]
    cases hl : alookup (Normalizer.ofDict raw).mapping (pyLower (pyStrip t)) with
    | none =>
        simp only [Option.getD_none]
        exact LowerStr_pyLower _
    | some v =>
        simp only [Option.getD_some]
        exact ofDict_values_lower raw _ (alookup_mem hl)

/-- C6 amended: `merge_price_db` does not lowercase market keys itself, so
the lowercase-keys invariant holds for the merged result provided the
updates' market keys are already lowercase (exactly what the callers
`collect_from_sources` and `main.py` guarantee by lowering market names);
item names in the merged result are lowercase with no assumption on the
updates' item names, because every written name passes through
`Normalizer.normalize`, which lowercases. -/
theorem merge_price_db_keys_lower (updates : List (String × List (String × ℚ)))
    (raw : List (String × String)) :
    ∀ db : PriceDb,
    (∀ mk ∈ akeys db, LowerStr mk) →
    (∀ mi ∈ db, ∀ ip ∈ mi.2, LowerStr ip.1) →
    (∀ mk ∈ updates.map Prod.fst, LowerStr mk) →
    (∀ mk ∈ akeys (merge_price_db db updates (Normalizer.ofDict raw)), LowerStr mk) ∧
    (∀ mi ∈ merge_price_db db updates (Normalizer.ofDict raw), ∀ ip ∈ mi.2, LowerStr ip.1) := by
  induction updates with
  | nil => exact fun db h1 h2 _ => ⟨h1, h2⟩
  | cons mu rest ih =>
      intro db h1 h2 h3
      obtain ⟨mk, items⟩ := mu
      have hmk : LowerStr mk := h3 mk (by simp)
      simp only [merge_price_db_cons]
      apply ih
      · intro k hk
        rcases mem_akeys_ainsert_elim hk with h | h
        · exact h1 k h
        · rw [h]
          exact hmk
      · intro mi hmi ip hip
        rcases mem_ainsert hmi with h | h
        · exact h2 mi h ip hip
        · have hip2 : ip ∈ writeAll ((alookup db mk).getD [])
              (canonItems (Normalizer.ofDict raw) items) := by
            rw [h] at hip
            exact hip
          rcases mem_writeAll _ hip2 with h4 | h4
          · cases hlo : alookup db mk with
            | none =>
                rw [hlo] at h4
                simp at h4
            | some old =>
                rw [hlo] at h4
                simp only [Option.getD_some] at h4
                exact h2 (mk, old) (alookup_mem hlo) ip h4
          · rcases List.mem_map.1 h4 with ⟨⟨i0, p0⟩, _, he⟩
            rw [← he]
            exact normalize_lower raw i0
      · exact fun k hk => h3 k (List.mem_cons_of_mem _ hk)

/-- C6 counterexample: the claim quantifies over updates with
arbitrary-case market keys, but `merge_price_db` writes the update's market
key verbatim: merging the update `{"M": {"a": 1}}` into the empty database
(which satisfies the invariant) yields a database whose only market key is
the non-lowercase `"M"`. -/
theorem merge_lowercase_counterexample :
    akeys (merge_price_db [] [("M", [("a", (1 : ℚ))])] defaultNormalizer) = ["M"] ∧
    ¬ LowerStr "M" := by
  constructor
  · rfl
  · decide

/-- C6 amended witness: the amended theorem applied to the default synonym
mapping, the empty current database, and a concrete lowercase-market
update whose item name is mixed-case. -/
theorem merge_price_db_keys_lower_witness :
    (∀ mk ∈ akeys (merge_price_db [] [("m", [("Arroz", (1 : ℚ))])]
        (Normalizer.ofDict load_default_mapping)), LowerStr mk) ∧
    (∀ mi ∈ merge_price_db [] [("m", [("Arroz", (1 : ℚ))])]
        (Normalizer.ofDict load_default_mapping), ∀ ip ∈ mi.2, LowerStr ip.1) :=
  merge_price_db_keys_lower [("m", [("Arroz", (1 : ℚ))])] load_default_mapping []
    (by simp [akeys]) (by simp) (by decide)

/-! ## `run_quote`: lemmas and claim C1 -/

theorem find?_split {α : Type} {p : α → Bool} {l : List α} {a : α}
    (h : l.find? p = some a) :
    ∃ l1 l2, l = l1 ++ a :: l2 ∧ p a = true ∧ ∀ x ∈ l1, ¬ p x = true := by
  induction l with
  | nil => simp at h
  | cons b l ih =>
      by_cases hb : p b
      · rw [List.find?_cons_of_pos _ hb] at h
        obtain rfl : b = a := by simpa using h
        exact ⟨[], l, by simp, hb, by simp⟩
      · rw [List.find?_cons_of_neg _ (by simpa using hb)] at h
        obtain ⟨l1, l2, he, hp, hall⟩ := ih h
        refine ⟨b :: l1, l2, by simp [he], hp, ?_⟩
        intro x hx
        rcases List.mem_cons.1 hx with h2 | h2
        · rw [h2]
          simpa using hb
        · exact hall x h2

theorem alookup_foldl_ainsert_not_mem {β γ : Type} (g : String → γ → β)
    {l : List (String × γ)} (init : AList β) {k : String} (h : k ∉ l.map Prod.fst) :
    alookup (l.foldl (fun c kv => ainsert c kv.1 (g kv.1 kv.2)) init) k = alookup init k := by
  induction l generalizing init with
  | nil => rfl
  | cons kv rest ih =>
      simp only [List.map_cons, List.mem_cons, not_or] at h
      rw [List.foldl_cons, ih _ h.2]
      exact alookup_ainsert_ne _ _ (Ne.symm h.1)

theorem alookup_foldl_ainsert {β γ : Type} (g : String → γ → β)
    {l : List (String × γ)} (init : AList β) {mk : String} {v : γ}
    (hnd : (l.map Prod.fst).Nodup) (hmem : (mk, v) ∈ l) :
    alookup (l.foldl (fun c kv => ainsert c kv.1 (g kv.1 kv.2)) init) mk = some (g mk v) := by
  induction l generalizing init with
  | nil => simp at hmem
  | cons kv rest ih =>
      obtain ⟨k0, v0⟩ := kv
      simp only [List.map_cons, List.nodup_cons] at hnd
      rcases List.mem_cons.1 hmem with h | h
      · obtain ⟨h1, h2⟩ : mk = k0 ∧ v = v0 := by simpa [Prod.ext_iff] using h
        subst h1
        subst h2
        rw [List.foldl_cons, alookup_foldl_ainsert_not_mem g _ hnd.1]
        exact alookup_ainsert_self _ _ _
      · exact List.foldl_cons .. ▸ ih _ hnd.2 h

/-- The two components of `run_quote` are independent per-market folds. -/
theorem run_quote_eq (itens : List String) (db : PriceDb) (norm : Option Normalizer) :
    run_quote itens db norm =
      (db.foldl (fun c mp => ainsert c mp.1 (quoteMarket itens norm mp.2).1) [],
       db.foldl (fun c mp => ainsert c mp.1 (pyRound2 (quoteMarket itens norm mp.2).2)) []) := by
  suffices general : ∀ (l : PriceDb) (c1 : AList (List QuoteEntry)) (c2 : AList ℚ),
      l.foldl (fun acc mp =>
        let r := quoteMarket itens norm mp.2
        (ainsert acc.1 mp.1 r.1, ainsert acc.2 mp.1 (pyRound2 r.2))) (c1, c2) =
      (l.foldl (fun c mp => ainsert c mp.1 (quoteMarket itens norm mp.2).1) c1,
       l.foldl (fun c mp => ainsert c mp.1 (pyRound2 (quoteMarket itens norm mp.2).2)) c2) by
    exact general db [] []
  intro l
  induction l with
  | nil => intro c1 c2; rfl
  | cons mp rest ih => intro c1 c2; exact ih _ _

/-- Unfolded form of the per-item loop body. -/
theorem quoteStep_eq (norm : Option Normalizer) (precos : AList ℚ)
    (acc : List QuoteEntry × ℚ) (item : String) :
    quoteStep norm precos acc item =
      if termOf norm item = "" then acc
      else
        match precos.find? (fun e => pySubstr (termOf norm item) e.1) with
        | some e => (acc.1 ++ [⟨item, e.1, e.2⟩], acc.2 + e.2)
        | none => (acc.1 ++ [⟨item, notFoundSentinel, 0⟩], acc.2) := rfl

/-- The per-market fold splits off its accumulator. -/
theorem quoteMarket_acc (itens : List String) (norm : Option Normalizer)
    (precos : AList ℚ) (es : List QuoteEntry) (tt : ℚ) :
    itens.foldl (quoteStep norm precos) (es, tt) =
      (es ++ (quoteMarket itens norm precos).1, tt + (quoteMarket itens norm precos).2) := by
  induction itens generalizing es tt with
  | nil => simp [quoteMarket]
  | cons item rest ih =>
      have hq : quoteMarket (item :: rest) norm precos =
          rest.foldl (quoteStep norm precos) (quoteStep norm precos ([], 0) item) := by
        rw [quoteMarket, List.foldl_cons]
      rw [List.foldl_cons, hq, quoteStep_eq, quoteStep_eq]
      by_cases hterm : termOf norm item = ""
      · rw [if_pos hterm, if_pos hterm]
        simpa [quoteMarket] using ih es tt
      · rw [if_neg hterm, if_neg hterm]
        cases hf : precos.find? (fun e => pySubstr (termOf norm item) e.1) with
        | some e =>
            have h1 := ih (es ++ [⟨item, e.1, e.2⟩]) (tt + e.2)
            have h2 := ih [⟨item, e.1, e.2⟩] (0 + e.2)
            simp only [List.nil_append] at h1 h2 ⊢
            rw [h1, h2]
            simp only [Prod.mk.injEq]
            exact ⟨by simp, by ring⟩
        | none =>
            have h1 := ih (es ++ [⟨item, notFoundSentinel, 0⟩]) tt
            have h2 := ih [⟨item, notFoundSentinel, 0⟩] 0
            simp only [List.nil_append] at h1 h2 ⊢
            rw [h1, h2]
            simp only [Prod.mk.injEq]
            exact ⟨by simp, by ring⟩

/-- The running total is the sum of the recorded prices (a not-found entry
records price 0 and adds nothing). -/
theorem quoteMarket_total (itens : List String) (norm : Option Normalizer)
    (precos : AList ℚ) :
    (quoteMarket itens norm precos).2 = sumPrecos (quoteMarket itens norm precos).1 := by
  induction itens with
  | nil => simp [quoteMarket, sumPrecos]
  | cons item rest ih =>
      have hq : quoteMarket (item :: rest) norm precos =
          rest.foldl (quoteStep norm precos) (quoteStep norm precos ([], 0) item) := by
        rw [quoteMarket, List.foldl_cons]
      rw [hq, quoteStep_eq]
      by_cases hterm : termOf norm item = ""
      · rw [if_pos hterm]
        exact ih
      · rw [if_neg hterm]
        cases hf : precos.find? (fun e => pySubstr (termOf norm item) e.1) with
        | some e =>
            simp only [List.nil_append]
            rw [quoteMarket_acc rest norm precos [⟨item, e.1, e.2⟩] (0 + e.2)]
            simp only [sumPrecos, List.map_append, List.sum_append, List.map_cons,
              List.map_nil, List.sum_cons, List.sum_nil]
            rw [← sumPrecos, ← ih]
            ring
        | none =>
            simp only [List.nil_append]
            rw [quoteMarket_acc rest norm precos [⟨item, notFoundSentinel, 0⟩] 0]
            simp only [sumPrecos, List.map_append, List.sum_append, List.map_cons,
              List.map_nil, List.sum_cons, List.sum_nil]
            rw [← sumPrecos, ← ih]
            ring

/-- Per-entry correctness of the per-market loop: one entry per non-empty
normalised term, in order; a found entry is the first database item
containing the term (with its stored price), a not-found entry is the
sentinel with price 0 and no database item contains the term. -/
theorem quoteMarket_entries (itens : List String) (norm : Option Normalizer)
    (precos : AList ℚ) :
    ((quoteMarket itens norm precos).1.map QuoteEntry.item_buscado =
      itens.filter (fun i => termOf norm i ≠ "")) ∧
    ∀ e ∈ (quoteMarket itens norm precos).1,
      (∃ l1 l2, precos = l1 ++ (e.item_encontrado, e.preco) :: l2 ∧
        pySubstr (termOf norm e.item_buscado) e.item_encontrado = true ∧
        ∀ x ∈ l1, ¬ pySubstr (termOf norm e.item_buscado) x.1 = true) ∨
      (e.item_encontrado = notFoundSentinel ∧ e.preco = 0 ∧
        ∀ x ∈ precos, ¬ pySubstr (termOf norm e.item_buscado) x.1 = true) := by
  induction itens with
  | nil =>
      constructor
      · simp [quoteMarket]
      · intro e he
        simp [quoteMarket] at he
  | cons item rest ih =>
      have hq : quoteMarket (item :: rest) norm precos =
          rest.foldl (quoteStep norm precos) (quoteStep norm precos ([], 0) item) := by
        rw [quoteMarket, List.foldl_cons]
      rw [hq, quoteStep_eq]
      by_cases hterm : termOf norm item = ""
      · rw [if_pos hterm]
        constructor
        · rw [List.filter_cons]
          simpa [hterm] using ih.1
        · exact ih.2
      · rw [if_neg hterm]
        cases hf : precos.find? (fun e => pySubstr (termOf norm item) e.1) with
        | some e0 =>
            simp only [List.nil_append]
            rw [quoteMarket_acc rest norm precos [⟨item, e0.1, e0.2⟩] (0 + e0.2)]
            constructor
            · simp [List.filter_cons, hterm, ih.1]
            · intro e he
              rcases List.mem_append.1 he with h | h
              · obtain rfl : e = ⟨item, e0.1, e0.2⟩ := by simpa using h
                left
                obtain ⟨l1, l2, hsplit, hp, hall⟩ := find?_split hf
                exact ⟨l1, l2, by simpa using hsplit, hp, hall⟩
              · exact ih.2 e h
        | none =>
            simp only [List.nil_append]
            rw [quoteMarket_acc rest norm precos [⟨item, notFoundSentinel, 0⟩] 0]
            constructor
            · simp [List.filter_cons, hterm, ih.1]
            · intro e he
              rcases List.mem_append.1 he with h | h
              · obtain rfl : e = ⟨item, notFoundSentinel, 0⟩ := by simpa using h
                right
                exact ⟨rfl, rfl, fun x hx => by
                  simpa using List.find?_eq_none.1 hf x hx⟩
              · exact ih.2 e h

theorem roundHalfEven_intCast (m : ℤ) : roundHalfEven ((m : ℚ)) = m := by
  unfold roundHalfEven
  simp only [Int.floor_intCast, sub_self]
  norm_num

theorem pyRound2_intCast (n : ℤ) : pyRound2 (n : ℚ) = (n : ℚ) := by
  unfold pyRound2
  have h1 : ((n : ℚ) * 100) = ((n * 100 : ℤ) : ℚ) := by push_cast; ring
  rw [h1, roundHalfEven_intCast]
  push_cast
  field_simp

/-- C1: for every price database (a Python dict: distinct market keys),
shopping list and optional normalizer, `run_quote` gives every market of the
database a detailed entry list and a total; the entry list has exactly one
entry per requested item with a non-empty normalised term, in order; a found
entry is the first stored item name containing the normalised term as a
substring, with its stored price; a not-found entry is the sentinel with
price 0 and no stored name contains the term; the market total is the sum of
the recorded prices (so unmatched items add nothing) rounded to 2 decimal
places.  In particular, for the database
`{"mercadoA": {"arroz 5kg tipo 1": 27.90, "feijão carioca 1kg": 9.10}}` and
the list `["arroz", "feijão"]` under the default synonym normalizer, both
items match and mercadoA's total is 37.00. -/
theorem run_quote_spec :
    (∀ (itens : List String) (db : PriceDb) (norm : Option Normalizer)
      (mk : String) (precos : AList ℚ),
      (db.map Prod.fst).Nodup → (mk, precos) ∈ db →
      alookup (run_quote itens db norm).1 mk = some (quoteMarket itens norm precos).1 ∧
      alookup (run_quote itens db norm).2 mk =
        some (pyRound2 (sumPrecos (quoteMarket itens norm precos).1)) ∧
      (quoteMarket itens norm precos).1.map QuoteEntry.item_buscado =
        itens.filter (fun i => termOf norm i ≠ "") ∧
      ∀ e ∈ (quoteMarket itens norm precos).1,
        (∃ l1 l2, precos = l1 ++ (e.item_encontrado, e.preco) :: l2 ∧
          pySubstr (termOf norm e.item_buscado) e.item_encontrado = true ∧
          ∀ x ∈ l1, ¬ pySubstr (termOf norm e.item_buscado) x.1 = true) ∨
        (e.item_encontrado = notFoundSentinel ∧ e.preco = 0 ∧
          ∀ x ∈ precos, ¬ pySubstr (termOf norm e.item_buscado) x.1 = true)) ∧
    alookup (run_quote exampleItens exampleDb (some defaultNormalizer)).2 "mercadoA" =
      some 37 ∧
    (run_quote exampleItens exampleDb (some defaultNormalizer)).1 =
      [("mercadoA",
        [⟨"arroz", "arroz 5kg tipo 1", (279 : ℚ) / 10⟩,
         ⟨"feijão", "feijão carioca 1kg", (91 : ℚ) / 10⟩])] := by
  refine ⟨?_, ?_, rfl⟩
  · intro itens db norm mk precos hnd hmem
    rw [run_quote_eq]
    refine ⟨alookup_foldl_ainsert (fun _ v => (quoteMarket itens norm v).1) _ hnd hmem, ?_,
      (quoteMarket_entries itens norm precos).1, (quoteMarket_entries itens norm precos).2⟩
    rw [← quoteMarket_total]
    exact alookup_foldl_ainsert (fun _ v => pyRound2 (quoteMarket itens norm v).2) _ hnd hmem
  · have h1 : (run_quote exampleItens exampleDb (some defaultNormalizer)).2 =
        [("mercadoA", pyRound2 (0 + (279 : ℚ) / 10 + (91 : ℚ) / 10))] := rfl
    rw [h1]
    have h3 : pyRound2 (0 + (279 : ℚ) / 10 + (91 : ℚ) / 10) = 37 := by
      have h2 : (0 + (279 : ℚ) / 10 + (91 : ℚ) / 10) = ((37 : ℤ) : ℚ) := by norm_num
      rw [h2, pyRound2_intCast]
      norm_num
    simp only [alookup, if_true]
    rw [h3]

/-- C1 witness: the general statement applied to the example database, list
and default normalizer. -/
theorem run_quote_spec_witness :
    ((exampleDb.map Prod.fst).Nodup) ∧
    alookup (run_quote exampleItens exampleDb (some defaultNormalizer)).1 "mercadoA" =
      some (quoteMarket exampleItens (some defaultNormalizer)
        [("arroz 5kg tipo 1", (279 : ℚ) / 10), ("feijão carioca 1kg", (91 : ℚ) / 10)]).1 :=
  ⟨by decide,
    (run_quote_spec.1 exampleItens exampleDb (some defaultNormalizer) "mercadoA"
      [("arroz 5kg tipo 1", (279 : ℚ) / 10), ("feijão carioca 1kg", (91 : ℚ) / 10)]
      (by decide) (List.Mem.head _)).1⟩

/-! ## `parse_brl`: soundness and completeness of the currency matcher
(claims C2 and C10) -/

theorem isDigitCh_iff {c : Char} : isDigitCh c = true ↔ 48 ≤ c.toNat ∧ c.toNat ≤ 57 := by
  simp [isDigitCh]

theorem digit_ne_dot {c : Char} (h : isDigitCh c = true) : c ≠ '.' := by
  intro he
  subst he
  simp [isDigitCh] at h

theorem digit_ne_comma {c : Char} (h : isDigitCh c = true) : c ≠ ',' := by
  intro he
  subst he
  simp [isDigitCh] at h

theorem digit_not_space {c : Char} (h : isDigitCh c = true) : isPySpace c = false := by
  rcases isDigitCh_iff.1 h with ⟨h1, h2⟩
  unfold isPySpace
  have hne : ∀ d : Char, d.toNat < 48 → c ≠ d := by
    intro d hd he
    subst he
    omega
  simp [hne ' ' (by decide), hne '\t' (by decide), hne '\n' (by decide),
    hne '\r' (by decide), hne '\x0b' (by decide), hne '\x0c' (by decide)]

theorem orElse_some {α : Type} {x : Option α} {f : Unit → Option α} {r : α}
    (h : x.orElse f = some r) : x = some r ∨ (x = none ∧ f () = some r) := by
  cases x <;> simp_all [Option.orElse]

theorem finishBrl_sound {acc cs g1 : List Char} {d1 d2 : Char} {rest : List Char}
    (h : finishBrl acc cs = some (g1, d1, d2, rest)) :
    g1 = acc ∧ cs = ',' :: d1 :: d2 :: rest ∧ isDigitCh d1 = true ∧ isDigitCh d2 = true := by
  rw [finishBrl.eq_def] at h
  split at h
  · rename_i e1 e2 r
    split at h
    · rename_i hd
      obtain ⟨h1, h2, h3, h4⟩ : acc = g1 ∧ e1 = d1 ∧ e2 = d2 ∧ r = rest := by
        simpa using h
      subst h1; subst h2; subst h3; subst h4
      simp only [Bool.and_eq_true] at hd
      exact ⟨rfl, rfl, hd.1, hd.2⟩
    · simp at h
  · simp at h

theorem finishBrl_comp (acc : List Char) {d1 d2 : Char} (rest : List Char)
    (h1 : isDigitCh d1 = true) (h2 : isDigitCh d2 = true) :
    finishBrl acc (',' :: d1 :: d2 :: rest) = some (acc, d1, d2, rest) := by
  rw [finishBrl.eq_def]
  simp [h1, h2]

theorem tryGroups_ne_dot (acc : List Char) {cs : List Char}
    (h : ∀ a b c rest, cs ≠ '.' :: a :: b :: c :: rest) :
    tryGroups acc cs = finishBrl acc cs := by
  rw [tryGroups.eq_def]
  split
  · rename_i a b c rest
    exact absurd rfl (h a b c rest)
  · rfl

theorem tryGroups_dot (acc : List Char) (a b c : Char) (rest : List Char) :
    tryGroups acc ('.' :: a :: b :: c :: rest) =
      if isDigitCh a && isDigitCh b && isDigitCh c then
        (tryGroups (acc ++ ['.', a, b, c]) rest).orElse
          (fun _ => finishBrl acc ('.' :: a :: b :: c :: rest))
      else finishBrl acc ('.' :: a :: b :: c :: rest) := by
  rw [tryGroups.eq_def]
  rfl

theorem tryGroups_sound_aux : ∀ (n : Nat) (cs : List Char), cs.length ≤ n →
    ∀ {acc g1 : List Char} {d1 d2 : Char} {rest : List Char},
    tryGroups acc cs = some (g1, d1, d2, rest) →
    ∃ blocks : List (List Char),
      g1 = acc ++ (blocks.map (fun b => '.' :: b)).flatten ∧
      cs = (blocks.map (fun b => '.' :: b)).flatten ++ ',' :: d1 :: d2 :: rest ∧
      (∀ b ∈ blocks, b.length = 3 ∧ ∀ c ∈ b, isDigitCh c = true) ∧
      isDigitCh d1 = true ∧ isDigitCh d2 = true := by
  intro n
  induction n with
  | zero =>
      intro cs hlen acc g1 d1 d2 rest h
      have hnil : cs = [] := List.length_eq_zero.1 (Nat.le_zero.1 hlen)
      subst hnil
      rw [tryGroups_ne_dot _ (by intro a b c r he; exact absurd he (by simp))] at h
      obtain ⟨_, h2, _, _⟩ := finishBrl_sound h
      exact absurd h2 (by simp)
  | succ n ih =>
      intro cs hlen acc g1 d1 d2 rest h
      by_cases hdot : ∃ a b c r, cs = '.' :: a :: b :: c :: r
      · obtain ⟨a, b, c, r, rfl⟩ := hdot
        rw [tryGroups_dot] at h
        by_cases hd : (isDigitCh a && isDigitCh b && isDigitCh c) = true
        · rw [if_pos hd] at h
          rcases orElse_some h with h2 | ⟨_, h2⟩
          · have hlen2 : r.length ≤ n := by
              simp only [List.length_cons] at hlen
              omega
            obtain ⟨blocks, hg, hcs, hbl, hd1, hd2⟩ := ih r hlen2 h2
            refine ⟨[a, b, c] :: blocks, ?_, ?_, ?_, hd1, hd2⟩
            · rw [hg]
              simp
            · rw [List.map_cons, List.flatten_cons]
              simp only [List.cons_append, List.append_assoc]
              rw [← hcs]
              simp
            · intro bl hbl2
              rcases List.mem_cons.1 hbl2 with h3 | h3
              · subst h3
                simp only [Bool.and_eq_true] at hd
                refine ⟨rfl, ?_⟩
                intro x hx
                rcases (by simpa using hx : x = a ∨ x = b ∨ x = c) with rfl | rfl | rfl
                · exact hd.1.1
                · exact hd.1.2
                · exact hd.2
              · exact hbl bl h3
          · obtain ⟨_, h3, _, _⟩ := finishBrl_sound h2
            exact absurd h3 (by simp)
        · rw [if_neg hd] at h
          obtain ⟨_, h3, _, _⟩ := finishBrl_sound h
          exact absurd h3 (by simp)
      · rw [tryGroups_ne_dot _ (by
          intro a b c r he
          exact hdot ⟨a, b, c, r, he⟩)] at h
        obtain ⟨h1, h2, h3, h4⟩ := finishBrl_sound h
        exact ⟨[], by simp [h1], by simp [h2], by simp, h3, h4⟩

theorem tryGroups_sound {cs acc g1 : List Char} {d1 d2 : Char} {rest : List Char}
    (h : tryGroups acc cs = some (g1, d1, d2, rest)) :
    ∃ blocks : List (List Char),
      g1 = acc ++ (blocks.map (fun b => '.' :: b)).flatten ∧
      cs = (blocks.map (fun b => '.' :: b)).flatten ++ ',' :: d1 :: d2 :: rest ∧
      (∀ b ∈ blocks, b.length = 3 ∧ ∀ c ∈ b, isDigitCh c = true) ∧
      isDigitCh d1 = true ∧ isDigitCh d2 = true :=
  tryGroups_sound_aux cs.length cs le_rfl h

theorem tryGroups_comp : ∀ (blocks : List (List Char)) (acc : List Char) {d1 d2 : Char}
    (rest : List Char),
    (∀ b ∈ blocks, b.length = 3 ∧ ∀ c ∈ b, isDigitCh c = true) →
    isDigitCh d1 = true → isDigitCh d2 = true →
    tryGroups acc ((blocks.map (fun b => '.' :: b)).flatten ++ ',' :: d1 :: d2 :: rest) =
      some (acc ++ (blocks.map (fun b => '.' :: b)).flatten, d1, d2, rest) := by
  intro blocks
  induction blocks with
  | nil =>
      intro acc d1 d2 rest _ h1 h2
      simp only [List.map_nil, List.flatten_nil, List.nil_append, List.append_nil]
      rw [tryGroups_ne_dot _ (by intro a b c r he; simp at he)]
      exact finishBrl_comp acc rest h1 h2
  | cons b bs ih =>
      intro acc d1 d2 rest hbl h1 h2
      obtain ⟨hlen, hdig⟩ := hbl b (List.mem_cons_self b bs)
      obtain ⟨x, y, z, rfl⟩ := List.length_eq_three.1 hlen
      simp only [List.map_cons, List.flatten_cons, List.cons_append, List.append_assoc]
      rw [tryGroups_dot]
      rw [if_pos (by
        simp only [Bool.and_eq_true]
        exact ⟨⟨hdig x (by simp), hdig y (by simp)⟩, hdig z (by simp)⟩)]
      simp only [List.nil_append]
      rw [ih (acc ++ ['.', x, y, z]) rest
        (fun bb hbb => hbl bb (List.mem_cons_of_mem _ hbb)) h1 h2]
      simp [Option.orElse, List.append_assoc]

theorem tryLen_def (n : Nat) (cs : List Char) :
    tryLen n cs = if ((cs.take n).length = n && (cs.take n).all isDigitCh) = true then
      tryGroups (cs.take n) (cs.drop n) else none := rfl

theorem tryLen_sound {n : Nat} {cs : List Char} {r : List Char × Char × Char × List Char}
    (h : tryLen n cs = some r) :
    (cs.take n).length = n ∧ (∀ c ∈ cs.take n, isDigitCh c = true) ∧
    tryGroups (cs.take n) (cs.drop n) = some r := by
  rw [tryLen_def] at h
  split at h
  · rename_i hc
    simp only [Bool.and_eq_true, decide_eq_true_eq, List.all_eq_true] at hc
    exact ⟨hc.1, hc.2, h⟩
  · simp at h

theorem tryAlt1_sound {cs : List Char} {r : List Char × Char × Char × List Char}
    (h : tryAlt1 cs = some r) : ∃ n, 1 ≤ n ∧ n ≤ 3 ∧ tryLen n cs = some r := by
  unfold tryAlt1 at h
  rcases orElse_some h with h1 | ⟨_, h1⟩
  · exact ⟨3, by omega, by omega, h1⟩
  · rcases orElse_some h1 with h2 | ⟨_, h2⟩
    · exact ⟨2, by omega, by omega, h2⟩
    · exact ⟨1, by omega, by omega, h2⟩

theorem alt2Loop_sound : ∀ (k : Nat) {ds rest0 : List Char}
    {r : List Char × Char × Char × List Char}, alt2Loop ds rest0 k = some r →
    ∃ j, 1 ≤ j ∧ j ≤ k ∧ finishBrl (ds.take j) (ds.drop j ++ rest0) = some r := by
  intro k
  induction k with
  | zero =>
      intro ds rest0 r h
      simp [alt2Loop] at h
  | succ k ih =>
      intro ds rest0 r h
      rw [alt2Loop] at h
      rcases orElse_some h with h1 | ⟨_, h1⟩
      · exact ⟨k + 1, by omega, le_rfl, h1⟩
      · obtain ⟨j, hj1, hj2, hj3⟩ := ih h1
        exact ⟨j, hj1, by omega, hj3⟩

theorem alts_sound {u g1 : List Char} {d1 d2 : Char} {rest : List Char}
    (h : (tryAlt1 u).orElse (fun _ => tryAlt2 u) = some (g1, d1, d2, rest)) :
    u = g1 ++ ',' :: d1 :: d2 :: rest ∧ IsIntPart g1 ∧
    isDigitCh d1 = true ∧ isDigitCh d2 = true := by
  rcases orElse_some h with h1 | ⟨_, h1⟩
  · obtain ⟨n, hn1, hn3, h2⟩ := tryAlt1_sound h1
    obtain ⟨hlen, hdig, h3⟩ := tryLen_sound h2
    obtain ⟨blocks, hg, hcs, hbl, hd1, hd2⟩ := tryGroups_sound h3
    refine ⟨?_, Or.inr ⟨u.take n, blocks, hg, by omega, by omega, hdig, hbl⟩, hd1, hd2⟩
    rw [hg]
    conv_lhs => rw [← List.take_append_drop n u]
    rw [hcs]
    simp [List.append_assoc]
  · unfold tryAlt2 at h1
    obtain ⟨j, hj1, hj2, h2⟩ := alt2Loop_sound _ h1
    obtain ⟨hga, hcs, hd1, hd2⟩ := finishBrl_sound h2
    constructor
    · calc u = u.takeWhile isDigitCh ++ u.dropWhile isDigitCh :=
            (List.takeWhile_append_dropWhile _ _).symm
        _ = ((u.takeWhile isDigitCh).take j ++ (u.takeWhile isDigitCh).drop j) ++
            u.dropWhile isDigitCh := by rw [List.take_append_drop]
        _ = g1 ++ ',' :: d1 :: d2 :: rest := by
            rw [List.append_assoc, hcs, hga]
    · refine ⟨Or.inl ⟨?_, ?_⟩, hd1, hd2⟩
      · rw [hga]
        have : ((u.takeWhile isDigitCh).take j).length = j := by
          rw [List.length_take]
          omega
        intro hnil
        rw [hnil] at this
        simp at this
        omega
      · intro c hc
        rw [hga] at hc
        exact List.mem_takeWhile_imp (List.take_subset _ _ hc)

theorem matchBrlAt_sound {cs g1 : List Char} {d1 d2 : Char} {rest : List Char}
    (h : matchBrlAt cs = some (g1, d1, d2, rest)) : BrlMatchAt cs g1 d1 d2 := by
  rw [matchBrlAt.eq_def] at h
  split at h
  · rename_i t
    obtain ⟨hu, hint, hd1, hd2⟩ := alts_sound h
    refine ⟨t.takeWhile isPySpace, rest, ?_,
      fun c hc => List.mem_takeWhile_imp hc, hint, hd1, hd2⟩
    have ht : t = t.takeWhile isPySpace ++ t.dropWhile isPySpace :=
      (List.takeWhile_append_dropWhile _ _).symm
    rw [List.append_assoc, ← hu, ← ht]
  · simp at h

/-! Completeness of the matcher. -/

theorem dropWhile_append_all {p : Char → Bool} : ∀ {ws l : List Char},
    (∀ c ∈ ws, p c = true) → List.dropWhile p (ws ++ l) = List.dropWhile p l := by
  intro ws
  induction ws with
  | nil => intro l _; rfl
  | cons c t ih =>
      intro l h
      rw [List.cons_append, List.dropWhile_cons, if_pos (h c (List.mem_cons_self c t))]
      exact ih (fun x hx => h x (List.mem_cons_of_mem _ hx))

theorem takeWhile_all_append {p : Char → Bool} : ∀ {l1 : List Char} (y : Char) (l2 : List Char),
    (∀ c ∈ l1, p c = true) → p y = false →
    (l1 ++ y :: l2).takeWhile p = l1 ∧ (l1 ++ y :: l2).dropWhile p = y :: l2 := by
  intro l1
  induction l1 with
  | nil =>
      intro y l2 _ hy
      constructor
      · rw [List.nil_append, List.takeWhile_cons, hy]
        simp
      · rw [List.nil_append, List.dropWhile_cons]
        simp [hy]
  | cons c t ih =>
      intro y l2 h hy
      have hc := h c (List.mem_cons_self c t)
      obtain ⟨ih1, ih2⟩ := ih y l2 (fun x hx => h x (List.mem_cons_of_mem _ hx)) hy
      constructor
      · rw [List.cons_append, List.takeWhile_cons, hc]
        simp [ih1]
      · rw [List.cons_append, List.dropWhile_cons, if_pos hc]
        exact ih2

theorem intPart_head {g1 : List Char} (h : IsIntPart g1) :
    ∃ hd t, g1 = hd :: t ∧ isDigitCh hd = true := by
  rcases h with ⟨hne, hall⟩ | ⟨b0, blocks, heq, hb1, _, hb0dig, _⟩
  · cases g1 with
    | nil => exact absurd rfl hne
    | cons hd t => exact ⟨hd, t, rfl, hall hd (List.mem_cons_self hd t)⟩
  · cases b0 with
    | nil => simp at hb1
    | cons c t =>
        exact ⟨c, t ++ (blocks.map (fun b => '.' :: b)).flatten, by simp [heq],
          hb0dig c (List.mem_cons_self c t)⟩

theorem finishBrl_head_ne {acc : List Char} {y : Char} {l : List Char} (hy : y ≠ ',') :
    finishBrl acc (y :: l) = none := by
  rw [finishBrl.eq_def]
  split
  · rename_i d1 d2 r heq
    injection heq with h1 _
    exact absurd h1 hy
  · rfl

theorem tryGroups_digit_head {acc : List Char} {y : Char} {l : List Char}
    (hy : isDigitCh y = true) : tryGroups acc (y :: l) = none := by
  rw [tryGroups_ne_dot _ (by
    intro a b c r he
    injection he with h1 _
    exact digit_ne_dot hy h1)]
  exact finishBrl_head_ne (digit_ne_comma hy)

theorem tryLen_at_boundary {b0 tail : List Char} (hdig : ∀ c ∈ b0, isDigitCh c = true) :
    tryLen b0.length (b0 ++ tail) = tryGroups b0 tail := by
  rw [tryLen_def, List.take_left, List.drop_left]
  rw [if_pos (by
    simp only [Bool.and_eq_true, decide_eq_true_eq, List.all_eq_true]
    exact ⟨by simp, hdig⟩)]

theorem tryLen_none_over {b0 : List Char} {y : Char} {l2 : List Char} {n : Nat}
    (hy : isDigitCh y = false) (hgt : b0.length < n) :
    tryLen n (b0 ++ y :: l2) = none := by
  rw [tryLen_def]
  rw [if_neg ?_]
  simp only [Bool.and_eq_true, not_and, List.all_eq_true]
  intro _ hall
  have hmem : y ∈ (b0 ++ y :: l2).take n := by
    rw [List.take_append_eq_append_take]
    refine List.mem_append.2 (Or.inr ?_)
    obtain ⟨m, hm⟩ : ∃ m, n - b0.length = m + 1 := ⟨n - b0.length - 1, by omega⟩
    rw [hm, List.take_succ_cons]
    exact List.mem_cons_self _ _
  rw [hall y hmem] at hy
  simp at hy

theorem tryLen_none_within {g1 tail : List Char} {n : Nat}
    (hdig : ∀ c ∈ g1, isDigitCh c = true) (_h1 : 1 ≤ n) (hlt : n < g1.length) :
    tryLen n (g1 ++ tail) = none := by
  obtain ⟨y, l2, hdrop⟩ : ∃ y l2, g1.drop n = y :: l2 := by
    cases hd : g1.drop n with
    | nil =>
        have := List.length_drop n g1
        rw [hd] at this
        simp at this
        omega
    | cons y l2 => exact ⟨y, l2, rfl⟩
  have htake : (g1 ++ tail).take n = g1.take n := by
    rw [List.take_append_eq_append_take, Nat.sub_eq_zero_of_le (by omega), List.take_zero,
      List.append_nil]
  have hdrop2 : (g1 ++ tail).drop n = g1.drop n ++ tail := by
    rw [List.drop_append_eq_append_drop, Nat.sub_eq_zero_of_le (by omega), List.drop_zero]
  rw [tryLen_def, htake, hdrop2, hdrop]
  rw [if_pos (by
    simp only [Bool.and_eq_true, decide_eq_true_eq, List.all_eq_true]
    constructor
    · rw [List.length_take]
      omega
    · exact fun c hc => hdig c (List.take_subset _ _ hc))]
  rw [List.cons_append]
  exact tryGroups_digit_head (hdig y (List.drop_subset _ _ (hdrop ▸ List.mem_cons_self _ _)))

theorem tryAlt1_comp_grouped {b0 : List Char} {blocks : List (List Char)} {d1 d2 : Char}
    {rest : List Char}
    (hb1 : 1 ≤ b0.length) (hb3 : b0.length ≤ 3) (hb0 : ∀ c ∈ b0, isDigitCh c = true)
    (hbl : ∀ b ∈ blocks, b.length = 3 ∧ ∀ c ∈ b, isDigitCh c = true)
    (hd1 : isDigitCh d1 = true) (hd2 : isDigitCh d2 = true) :
    tryAlt1 (b0 ++ ((blocks.map (fun b => '.' :: b)).flatten ++ ',' :: d1 :: d2 :: rest)) =
      some (b0 ++ (blocks.map (fun b => '.' :: b)).flatten, d1, d2, rest) := by
  have hgroups : tryGroups b0
      ((blocks.map (fun b => '.' :: b)).flatten ++ ',' :: d1 :: d2 :: rest) =
      some (b0 ++ (blocks.map (fun b => '.' :: b)).flatten, d1, d2, rest) :=
    tryGroups_comp blocks b0 rest hbl hd1 hd2
  obtain ⟨y, l2, htail, hy⟩ : ∃ y l2,
      (blocks.map (fun b => '.' :: b)).flatten ++ ',' :: d1 :: d2 :: rest = y :: l2 ∧
      isDigitCh y = false := by
    cases blocks with
    | nil => exact ⟨',', d1 :: d2 :: rest, by simp, by decide⟩
    | cons b bs =>
        obtain ⟨hlen, _⟩ := hbl b (List.mem_cons_self b bs)
        obtain ⟨x, y', z, rfl⟩ := List.length_eq_three.1 hlen
        exact ⟨'.', x :: y' :: z ::
          ((bs.map (fun b => '.' :: b)).flatten ++ ',' :: d1 :: d2 :: rest),
          by simp, by decide⟩
  have hover : ∀ n, b0.length < n → tryLen n (b0 ++ y :: l2) = none :=
    fun n hn => tryLen_none_over hy hn
  have hat : tryLen b0.length (b0 ++ y :: l2) =
      some (b0 ++ (blocks.map (fun b => '.' :: b)).flatten, d1, d2, rest) := by
    rw [tryLen_at_boundary hb0, ← htail]
    exact hgroups
  rw [htail]
  unfold tryAlt1
  rcases (by omega : b0.length = 1 ∨ b0.length = 2 ∨ b0.length = 3) with h | h | h
  · rw [hover 3 (by omega), hover 2 (by omega), ← h, hat]
    rfl
  · rw [hover 3 (by omega), ← h, hat]
    rfl
  · rw [← h, hat]
    rfl

theorem tryAlt2_comp {g1 : List Char} {d1 d2 : Char} {rest : List Char}
    (hne : g1 ≠ []) (hdig : ∀ c ∈ g1, isDigitCh c = true)
    (hd1 : isDigitCh d1 = true) (hd2 : isDigitCh d2 = true) :
    tryAlt2 (g1 ++ ',' :: d1 :: d2 :: rest) = some (g1, d1, d2, rest) := by
  unfold tryAlt2
  obtain ⟨htw, hdw⟩ := takeWhile_all_append ',' (d1 :: d2 :: rest) hdig (by decide)
  rw [htw, hdw]
  obtain ⟨k, hk⟩ : ∃ k, g1.length = k + 1 := by
    cases g1 with
    | nil => exact absurd rfl hne
    | cons c t => exact ⟨t.length, by simp⟩
  rw [hk, alt2Loop]
  rw [List.take_of_length_le (by omega), List.drop_eq_nil_of_le (by omega), List.nil_append]
  rw [finishBrl_comp g1 rest hd1 hd2]
  rfl

theorem tryAlt1_none_long {g1 tail : List Char}
    (hdig : ∀ c ∈ g1, isDigitCh c = true) (hlen : 3 < g1.length) :
    tryAlt1 (g1 ++ tail) = none := by
  unfold tryAlt1
  rw [tryLen_none_within hdig (by omega) (by omega),
    tryLen_none_within hdig (by omega) (by omega),
    tryLen_none_within hdig (by omega) (by omega)]
  rfl

theorem brlTail_comp {ws g1 : List Char} {d1 d2 : Char} {rest : List Char}
    (hws : ∀ c ∈ ws, isPySpace c = true) (hint : IsIntPart g1)
    (hd1 : isDigitCh d1 = true) (hd2 : isDigitCh d2 = true) :
    brlTail (ws ++ g1 ++ ',' :: d1 :: d2 :: rest) = some (g1, d1, d2, rest) := by
  unfold brlTail
  have hdw : (ws ++ g1 ++ ',' :: d1 :: d2 :: rest).dropWhile isPySpace =
      g1 ++ ',' :: d1 :: d2 :: rest := by
    rw [List.append_assoc, dropWhile_append_all hws]
    obtain ⟨hd, t, heq, hdg⟩ := intPart_head hint
    rw [heq, List.cons_append, List.dropWhile_cons]
    simp [digit_not_space hdg]
  rw [hdw]
  rcases (em (IsGroupedInt g1)) with hg | hg
  · obtain ⟨b0, blocks, heq, h1, h3, hdig, hbl⟩ := hg
    subst heq
    have hA : tryAlt1 (b0 ++ ((blocks.map (fun b => '.' :: b)).flatten ++
        ',' :: d1 :: d2 :: rest)) =
        some (b0 ++ (blocks.map (fun b => '.' :: b)).flatten, d1, d2, rest) :=
      tryAlt1_comp_grouped h1 h3 hdig hbl hd1 hd2
    rw [List.append_assoc, hA]
    rfl
  · rcases hint with ⟨hne, hall⟩ | hg2
    · by_cases hlen : g1.length ≤ 3
      · exact absurd ⟨g1, [], by simp, by
          have := List.length_pos.2 hne
          omega, hlen, hall, by simp⟩ hg
      · rw [tryAlt1_none_long hall (by omega)]
        rw [show (Option.none).orElse (fun _ => tryAlt2 (g1 ++ ',' :: d1 :: d2 :: rest)) =
          tryAlt2 (g1 ++ ',' :: d1 :: d2 :: rest) from rfl]
        exact tryAlt2_comp hne hall hd1 hd2
    · exact absurd hg2 hg

theorem matchBrlAt_comp {ws g1 : List Char} {d1 d2 : Char} {rest : List Char}
    (hws : ∀ c ∈ ws, isPySpace c = true) (hint : IsIntPart g1)
    (hd1 : isDigitCh d1 = true) (hd2 : isDigitCh d2 = true) :
    matchBrlAt ('R' :: '$' :: (ws ++ g1 ++ ',' :: d1 :: d2 :: rest)) =
      some (g1, d1, d2, rest) := by
  rw [matchBrlAt.eq_def]
  exact brlTail_comp hws hint hd1 hd2

theorem matchBrlAt_none_iff {cs : List Char} :
    matchBrlAt cs = none ↔ ∀ g1 d1 d2, ¬ BrlMatchAt cs g1 d1 d2 := by
  constructor
  · intro h g1 d1 d2 hm
    obtain ⟨ws, rest, heq, hws, hint, hd1, hd2⟩ := hm
    rw [heq, matchBrlAt_comp hws hint hd1 hd2] at h
    simp at h
  · intro h
    cases hm : matchBrlAt cs with
    | none => rfl
    | some r =>
        obtain ⟨g1, d1, d2, rest⟩ := r
        exact absurd (matchBrlAt_sound hm) (h g1 d1 d2)

theorem searchBrl_sound : ∀ {cs : List Char} {r : List Char × Char × Char × List Char},
    searchBrl cs = some r →
    ∃ p, matchBrlAt (cs.drop p) = some r ∧ ∀ q, q < p → matchBrlAt (cs.drop q) = none := by
  intro cs
  induction cs with
  | nil => intro r h; simp [searchBrl] at h
  | cons c t ih =>
      intro r h
      rw [searchBrl] at h
      rcases orElse_some h with h1 | ⟨hn, h1⟩
      · exact ⟨0, h1, fun q hq => absurd hq (by omega)⟩
      · obtain ⟨p, hp1, hp2⟩ := ih h1
        refine ⟨p + 1, by simpa using hp1, ?_⟩
        intro q hq
        cases q with
        | zero => exact hn
        | succ q' => simpa using hp2 q' (by omega)

theorem searchBrl_none : ∀ {cs : List Char}, searchBrl cs = none →
    ∀ p, matchBrlAt (cs.drop p) = none := by
  intro cs
  induction cs with
  | nil => intro _ p; rw [List.drop_nil]; rfl
  | cons c t ih =>
      intro h p
      rw [searchBrl] at h
      have h1 : matchBrlAt (c :: t) = none := by
        cases hm : matchBrlAt (c :: t) with
        | none => rfl
        | some r => rw [hm] at h; simp [Option.orElse] at h
      rw [h1] at h
      cases p with
      | zero => exact h1
      | succ p' =>
          have h2 : searchBrl t = none := by simpa [Option.orElse] using h
          simpa using ih h2 p'

theorem searchBrl_none_of : ∀ {cs : List Char},
    (∀ p, matchBrlAt (cs.drop p) = none) → searchBrl cs = none := by
  intro cs
  induction cs with
  | nil => intro _; rfl
  | cons c t ih =>
      intro h
      have h0 : matchBrlAt (c :: t) = none := by simpa using h 0
      rw [searchBrl, h0]
      show searchBrl t = none
      exact ih (fun p => by simpa using h (p + 1))

/-- C2: for every input string, `parse_brl` returns `none` exactly when no
substring of the input is in the Brazilian currency format
`R$<thousands-grouped integer>,<2-digit fraction>`, and when it returns a
value, that value is the decimal value of a format match starting at the
leftmost position admitting one; specifically
`parse_brl "R$ 1.234,56" = 1234.56`, `parse_brl "sem preço"` has no match,
and `parse_brl "R$12,5x"` has no match because exactly two fraction digits
are required. -/
theorem parse_brl_spec :
    (∀ s : String,
      (parse_brl s = none ↔ ∀ p g1 d1 d2, ¬ BrlMatchAt (s.data.drop p) g1 d1 d2) ∧
      (∀ v, parse_brl s = some v →
        ∃ p g1 d1 d2, BrlMatchAt (s.data.drop p) g1 d1 d2 ∧ v = brlValue g1 d1 d2 ∧
          ∀ q, q < p → ∀ g1' e1 e2, ¬ BrlMatchAt (s.data.drop q) g1' e1 e2)) ∧
    parse_brl "R$ 1.234,56" = some ((123456 : ℚ) / 100) ∧
    parse_brl "sem preço" = none ∧
    parse_brl "R$12,5x" = none := by
  refine ⟨fun s => ⟨⟨?_, ?_⟩, ?_⟩, ?_, rfl, rfl⟩
  · intro h p g1 d1 d2 hm
    unfold parse_brl at h
    split at h
    · rename_i hs
      exact (matchBrlAt_none_iff.1 (searchBrl_none hs p) g1 d1 d2) hm
    · simp at h
  · intro h
    unfold parse_brl
    rw [searchBrl_none_of (fun p => matchBrlAt_none_iff.2 (h p))]
  · intro v h
    unfold parse_brl at h
    split at h
    · simp at h
    · rename_i g1 d1 d2 rest hs
      obtain ⟨p, hp1, hp2⟩ := searchBrl_sound hs
      refine ⟨p, g1, d1, d2, matchBrlAt_sound hp1, by simpa using h.symm, ?_⟩
      intro q hq g1' e1 e2
      exact matchBrlAt_none_iff.1 (hp2 q hq) g1' e1 e2
  · have h1 : parse_brl "R$ 1.234,56" =
        some (brlValue ['1', '.', '2', '3', '4'] '5' '6') := rfl
    rw [h1]
    have h2 : brlValue ['1', '.', '2', '3', '4'] '5' '6' =
        ((digitsToNat ['1', '2', '3', '4'] : ℚ) + (digitsToNat ['5', '6'] : ℚ) / 100) := rfl
    rw [h2, show digitsToNat ['1', '2', '3', '4'] = 1234 from rfl,
      show digitsToNat ['5', '6'] = 56 from rfl]
    norm_num

/-- C2 witness: the characterisation applied to `"xR$ 5,00y"`, whose match
starts strictly after the beginning of the string. -/
theorem parse_brl_spec_witness :
    ∃ p g1 d1 d2, BrlMatchAt (("xR$ 5,00y").data.drop p) g1 d1 d2 ∧
      brlValue ['5'] '0' '0' = brlValue g1 d1 d2 ∧
      ∀ q, q < p → ∀ g1' e1 e2, ¬ BrlMatchAt (("xR$ 5,00y").data.drop q) g1' e1 e2 :=
  (parse_brl_spec.1 "xR$ 5,00y").2 (brlValue ['5'] '0' '0') rfl

/-- C10: `parse_brl` is total by construction (the embedded matcher is a
total function and the guarded `float` conversion cannot fail on the matched
shape, so its error branch is dead), and every value it returns is
non-negative. -/
theorem parse_brl_nonneg (s : String) (v : ℚ) (h : parse_brl s = some v) : 0 ≤ v := by
  unfold parse_brl at h
  split at h
  · simp at h
  · rename_i g1 d1 d2 rest _
    obtain rfl : v = brlValue g1 d1 d2 := by simpa using h.symm
    unfold brlValue
    have h1 : (0 : ℚ) ≤ (digitsToNat (g1.filter (fun c => c ≠ '.')) : ℚ) :=
      Nat.cast_nonneg _
    have h2 : (0 : ℚ) ≤ (digitsToNat [d1, d2] : ℚ) / 100 := by
      apply div_nonneg (Nat.cast_nonneg _)
      norm_num
    linarith

/-- C10 witness: `parse_brl` on a concrete string returns a non-negative
value. -/
theorem parse_brl_nonneg_witness :
    parse_brl "R$ 2,50" = some (brlValue ['2'] '5' '0') ∧
    0 ≤ brlValue ['2'] '5' '0' :=
  ⟨rfl, parse_brl_nonneg "R$ 2,50" _ rfl⟩

/-! ## `extract_from_cards`: claim C9 -/

theorem mem_foldl_processCard {rule : SiteRule} :
    ∀ {cards : List Card} {init : AList ℚ} {kv : String × ℚ},
    kv ∈ cards.foldl (processCard rule) init →
    kv ∈ init ∨ ∃ card ∈ cards, cardName rule card ≠ "" ∧
      cardPrice rule card = some kv.2 ∧ kv.1 = pyLower (cardName rule card) := by
  intro cards
  induction cards with
  | nil => exact fun h => Or.inl h
  | cons card cards ih =>
      intro init kv h
      rw [List.foldl_cons] at h
      rcases ih h with h2 | ⟨c2, hc2, hprop⟩
      · have h3 : kv ∈ processCard rule init card := h2
        unfold processCard at h3
        cases hp : cardPrice rule card with
        | none =>
            rw [hp] at h3
            exact Or.inl h3
        | some p =>
            rw [hp] at h3
            have h3a : kv ∈ (if cardName rule card ≠ "" then
                ainsert init (pyLower (cardName rule card)) p else init) := h3
            by_cases hn : cardName rule card ≠ ""
            · rw [if_pos hn] at h3a
              rcases mem_ainsert h3a with h4 | h4
              · exact Or.inl h4
              · refine Or.inr ⟨card, List.mem_cons_self _ _, hn, ?_, ?_⟩
                · rw [hp, h4]
                · rw [h4]
            · rw [if_neg hn] at h3a
              exact Or.inl h3a
      · exact Or.inr ⟨c2, List.mem_cons_of_mem _ hc2, hprop⟩

theorem mem_cardsLoop {soup : Soup} {rule : SiteRule} :
    ∀ {sels : List String} {items : AList ℚ} {kv : String × ℚ},
    kv ∈ cardsLoop soup rule sels items →
    kv ∈ items ∨ ∃ sel ∈ sels, ∃ card ∈ soup.select sel, cardName rule card ≠ "" ∧
      cardPrice rule card = some kv.2 ∧ kv.1 = pyLower (cardName rule card) := by
  intro sels
  induction sels with
  | nil => exact fun h => Or.inl h
  | cons sel rest ih =>
      intro items kv h
      rw [cardsLoop] at h
      by_cases he : (soup.select sel).foldl (processCard rule) items = []
      · rw [he] at h
        simp only [if_pos rfl] at h
        rcases ih h with h2 | ⟨s2, hs2, hrest⟩
        · simp at h2
        · exact Or.inr ⟨s2, List.mem_cons_of_mem _ hs2, hrest⟩
      · rw [if_neg he] at h
        rcases mem_foldl_processCard h with h2 | ⟨c2, hc2, hprop⟩
        · exact Or.inl h2
        · exact Or.inr ⟨sel, List.mem_cons_self _ _, c2, hc2, hprop⟩

theorem cardsLoop_firstNonEmpty (soup : Soup) (rule : SiteRule) :
    ∀ sels : List String,
    cardsLoop soup rule sels [] =
      (match sels.findSome? (fun sel =>
          if selResult soup rule sel = [] then none else some (selResult soup rule sel)) with
        | some r => r
        | none => []) := by
  intro sels
  induction sels with
  | nil => rfl
  | cons sel rest ih =>
      rw [cardsLoop, List.findSome?_cons]
      by_cases he : selResult soup rule sel = []
      · rw [show (soup.select sel).foldl (processCard rule) [] = selResult soup rule sel
          from rfl, he]
        simp only [if_pos rfl]
        exact ih
      · rw [show (soup.select sel).foldl (processCard rule) [] = selResult soup rule sel
          from rfl]
        rw [if_neg he, if_neg he]

/-- C9: `extract_from_cards` returns the items of the first card selector
(in the rule's priority order) whose card scan yields any items — once a
selector yields items no later selector is scanned — and every returned
entry comes from a card for which both a name resolved (non-empty) and a
price resolved, keyed by the lowercased name with that price. -/
theorem extract_from_cards_spec :
    (∀ (soup : Soup) (rule : SiteRule),
      extract_from_cards soup rule = firstSelectorResult soup rule) ∧
    (∀ (soup : Soup) (rule : SiteRule) (kv : String × ℚ),
      kv ∈ extract_from_cards soup rule →
      ∃ sel ∈ rule.card_selectors, ∃ card ∈ soup.select sel,
        cardName rule card ≠ "" ∧ cardPrice rule card = some kv.2 ∧
        kv.1 = pyLower (cardName rule card)) := by
  constructor
  · intro soup rule
    exact cardsLoop_firstNonEmpty soup rule rule.card_selectors
  · intro soup rule kv h
    rcases mem_cardsLoop h with h2 | h2
    · simp at h2
    · exact h2

/-- C9 witness: a concrete one-card soup; the claim's characterisation
applied to the extracted entry. -/
theorem extract_from_cards_spec_witness :
    ∃ sel ∈ exRuleCards.card_selectors, ∃ card ∈ exSoupCards.select sel,
      cardName exRuleCards card ≠ "" ∧
      cardPrice exRuleCards card = some (pyLower "Arroz Agulha", brlValue ['5'] '0' '0').2 ∧
      (pyLower "Arroz Agulha", brlValue ['5'] '0' '0').1 =
        pyLower (cardName exRuleCards card) :=
  extract_from_cards_spec.2 exSoupCards exRuleCards
    (pyLower "Arroz Agulha", brlValue ['5'] '0' '0') (List.Mem.head _)

/-! ## `fetch_prices_for_url`: claim C3 -/

theorem pathsLoop_cons (fetch : String → Option String) (parse : String → Soup)
    (rule : Option SiteRule) (base p : String) (ps : List String) :
    pathsLoop fetch parse rule base (p :: ps) =
      (match fetch (pathTarget base p) with
       | none =>
           ((pathsLoop fetch parse rule base ps).1,
            pathTarget base p :: (pathsLoop fetch parse rule base ps).2)
       | some html =>
           if combinedExtract rule (parse html) = [] then
             ((pathsLoop fetch parse rule base ps).1,
              pathTarget base p :: (pathsLoop fetch parse rule base ps).2)
           else (combinedExtract rule (parse html), [pathTarget base p])) := rfl

theorem pathsLoop_trace (fetch : String → Option String) (parse : String → Soup)
    (rule : Option SiteRule) (base : String) :
    ∀ paths : List String,
    (pathsLoop fetch parse rule base paths).2 =
      probeTrace (fetchSucceeds fetch parse rule) (paths.map (pathTarget base)) := by
  intro paths
  induction paths with
  | nil => rfl
  | cons p ps ih =>
      rw [pathsLoop_cons, List.map_cons, probeTrace]
      cases hf : fetch (pathTarget base p) with
      | none =>
          have hs : fetchSucceeds fetch parse rule (pathTarget base p) = false := by
            unfold fetchSucceeds
            rw [hf]
          rw [hs]
          simpa using ih
      | some html =>
          by_cases he : combinedExtract rule (parse html) = []
          · have hs : fetchSucceeds fetch parse rule (pathTarget base p) = false := by
              unfold fetchSucceeds
              rw [hf]
              simp [he]
            rw [hs]
            simp only [he, if_pos rfl, Bool.false_eq_true, if_false]
            simpa using ih
          · have hs : fetchSucceeds fetch parse rule (pathTarget base p) = true := by
              unfold fetchSucceeds
              rw [hf]
              simpa using he
            rw [hs]
            simp [he]

/-- C3 amended: in direct mode, when extraction from the base URL succeeds
no further URL is fetched (the trace is exactly `[base]`); otherwise every
configured path is probed in turn — fetching `base + path`, except that when
the base URL already ends with the path the base URL itself is fetched
*again* (the path is not skipped) — stopping after the first fetch whose
extraction yields items, or when the paths are exhausted. -/
theorem fetch_prices_trace (fetch : String → Option String) (parse : String → Soup)
    (rules : List SiteRule) (url : String) :
    (∀ html, fetch (rstripSlashes url) = some html →
        combinedExtract (choose_rule url rules) (parse html) ≠ [] →
        fetch_prices_for_url fetch parse rules url =
          (combinedExtract (choose_rule url rules) (parse html), [rstripSlashes url])) ∧
    (fetchSucceeds fetch parse (choose_rule url rules) (rstripSlashes url) = false →
      (fetch_prices_for_url fetch parse rules url).2 =
        rstripSlashes url ::
          probeTrace (fetchSucceeds fetch parse (choose_rule url rules))
            ((rulePaths (choose_rule url rules)).map (pathTarget (rstripSlashes url)))) := by
  have hdef : fetch_prices_for_url fetch parse rules url =
      (match fetch (rstripSlashes url) with
       | some html =>
           if combinedExtract (choose_rule url rules) (parse html) = [] then
             ((pathsLoop fetch parse (choose_rule url rules) (rstripSlashes url)
                (rulePaths (choose_rule url rules))).1,
              rstripSlashes url :: (pathsLoop fetch parse (choose_rule url rules)
                (rstripSlashes url) (rulePaths (choose_rule url rules))).2)
           else (combinedExtract (choose_rule url rules) (parse html), [rstripSlashes url])
       | none =>
           ((pathsLoop fetch parse (choose_rule url rules) (rstripSlashes url)
              (rulePaths (choose_rule url rules))).1,
            rstripSlashes url :: (pathsLoop fetch parse (choose_rule url rules)
              (rstripSlashes url) (rulePaths (choose_rule url rules))).2)) := rfl
  constructor
  · intro html hf hne
    rw [hdef, hf]
    simp only [if_neg hne]
  · intro hfb
    rw [hdef]
    cases hf : fetch (rstripSlashes url) with
    | none =>
        simp only
        rw [pathsLoop_trace]
    | some html =>
        have he : combinedExtract (choose_rule url rules) (parse html) = [] := by
          unfold fetchSucceeds at hfb
          rw [hf] at hfb
          simpa using hfb
        simp only
        rw [if_pos he, pathsLoop_trace]

/-- C3 counterexample: with base URL `http://a/x`, a rule whose only path is
`/x`, and a base-URL extraction that yields nothing, the claim predicts the
path is *skipped* (one fetch in total); the code instead fetches the base
URL a second time for that path: the fetch trace is
`["http://a/x", "http://a/x"]`, not `["http://a/x"]`. -/
theorem fetch_prices_counterexample :
    (fetch_prices_for_url (fun _ => some "h") (fun _ => emptySoup) [exRuleX] "http://a/x").2 =
      ["http://a/x", "http://a/x"] ∧
    (["http://a/x", "http://a/x"] : List String) ≠ ["http://a/x"] := by
  constructor
  · decide
  · decide

/-- C3 amended witness: the trace characterisation at a concrete url whose
fetches all fail. -/
theorem fetch_prices_trace_witness :
    fetchSucceeds (fun _ => none) (fun _ => emptySoup)
      (choose_rule "http://a/" [exRuleX]) (rstripSlashes "http://a/") = false ∧
    (fetch_prices_for_url (fun _ => none) (fun _ => emptySoup) [exRuleX] "http://a/").2 =
      rstripSlashes "http://a/" ::
        probeTrace (fetchSucceeds (fun _ => none) (fun _ => emptySoup)
            (choose_rule "http://a/" [exRuleX]))
          ((rulePaths (choose_rule "http://a/" [exRuleX])).map
            (pathTarget (rstripSlashes "http://a/"))) :=
  ⟨by decide,
    (fetch_prices_trace (fun _ => none) (fun _ => emptySoup) [exRuleX] "http://a/").2
      (by decide)⟩

/-! ## `search_prices_for_terms_http`: claim C7 -/

theorem findSome?_append {α β : Type} (f : α → Option β) (l1 l2 : List α) :
    List.findSome? f (l1 ++ l2) =
      (List.findSome? f l1).orElse (fun _ => List.findSome? f l2) := by
  induction l1 with
  | nil => simp [Option.orElse]
  | cons a l1 ih =>
      rw [List.cons_append, List.findSome?_cons, List.findSome?_cons]
      cases f a with
      | some b => simp [Option.orElse]
      | none => simpa [Option.orElse] using ih

theorem urlsLoop_eq (tryU : String → Option ℚ) :
    ∀ urls : List String, urlsLoop tryU urls = urls.findSome? tryU := by
  intro urls
  induction urls with
  | nil => rfl
  | cons u us ih =>
      rw [urlsLoop, List.findSome?_cons]
      cases tryU u with
      | some p => rfl
      | none => exact ih

theorem queriesLoop_eq (tryU : String → Option ℚ) (buildU : String → List String) :
    ∀ qs : List String,
    queriesLoop tryU buildU qs = ((qs.map buildU).flatten).findSome? tryU := by
  intro qs
  induction qs with
  | nil => rfl
  | cons q qs ih =>
      rw [queriesLoop, List.map_cons, List.flatten_cons, findSome?_append, urlsLoop_eq]
      cases (buildU q).findSome? tryU with
      | some p => rfl
      | none => simpa [Option.orElse] using ih

/-- C7: search-mode retrieval is empty when no rule matches the base URL or
the matched rule declares no search templates; otherwise for each requested
term the candidate URLs are scanned variant-by-variant,
template-by-template (the flattened candidate list, in order), the first
candidate whose fetch + extraction yields at least one item contributes that
extraction's *first* item price as the term's match, and a term with no
successful candidate contributes no entry to the result. -/
theorem search_prices_spec :
    (∀ (fetch : String → Option String) (parse : String → Soup) (rules : List SiteRule)
      (base_url : String) (terms : List String),
      search_prices_for_terms_http fetch parse rules base_url terms =
        searchSpec fetch parse rules base_url terms) ∧
    (∀ fetch parse rules base_url terms, choose_rule base_url rules = none →
      search_prices_for_terms_http fetch parse rules base_url terms = []) ∧
    (∀ fetch parse rules base_url terms rule, choose_rule base_url rules = some rule →
      rule.search_templates = [] →
      search_prices_for_terms_http fetch parse rules base_url terms = []) := by
  refine ⟨?_, ?_, ?_⟩
  · intro fetch parse rules base_url terms
    unfold search_prices_for_terms_http searchSpec
    cases hr : choose_rule base_url rules with
    | none => rfl
    | some rule =>
        simp only
        by_cases ht : rule.search_templates = []
        · rw [if_pos ht, if_pos ht]
        · rw [if_neg ht, if_neg ht]
          have hf : (fun (out : AList ℚ) (term : String) =>
              match queriesLoop (tryUrl fetch parse rule)
                  (fun q => build_search_urls base_url rule q)
                  ((alookup (expand_queries terms) term).getD [term]) with
              | some p => ainsert out (pyLower term) p
              | none => out) =
              (fun (out : AList ℚ) (term : String) =>
              match (((alookup (expand_queries terms) term).getD [term]).map
                  (fun q => build_search_urls base_url rule q)).flatten.findSome?
                  (tryUrl fetch parse rule) with
              | some p => ainsert out (pyLower term) p
              | none => out) := by
            funext out term
            rw [queriesLoop_eq]
          rw [hf]
  · intro fetch parse rules base_url terms hr
    unfold search_prices_for_terms_http
    rw [hr]
  · intro fetch parse rules base_url terms rule hr ht
    unfold search_prices_for_terms_http
    rw [hr]
    simp only
    rw [if_pos ht]

/-- C7 witness: with no matching rule the search result is empty, and on a
concrete rule with a template the search equals its specification. -/
theorem search_prices_spec_witness :
    choose_rule "http://m/" ([] : List SiteRule) = none ∧
    search_prices_for_terms_http (fun _ => some "h") (fun _ => exSoupCards) []
      "http://m/" ["arroz"] = [] ∧
    search_prices_for_terms_http (fun _ => some "h") (fun _ => exSoupCards) [exRuleSearch]
      "http://m/" ["arroz"] =
      searchSpec (fun _ => some "h") (fun _ => exSoupCards) [exRuleSearch]
        "http://m/" ["arroz"] :=
  ⟨rfl,
    search_prices_spec.2.1 (fun _ => some "h") (fun _ => exSoupCards) [] "http://m/"
      ["arroz"] rfl,
    search_prices_spec.1 (fun _ => some "h") (fun _ => exSoupCards) [exRuleSearch]
      "http://m/" ["arroz"]⟩

/-! ## `_expand_queries`: claim C8 -/

theorem mem_ciDedupGo : ∀ {l seen : List String} {x : String},
    x ∈ ciDedupGo seen l → x ∈ l ∧ pyLower x ∉ seen := by
  intro l
  induction l with
  | nil => intro seen x h; simp [ciDedupGo] at h
  | cons y ys ih =>
      intro seen x h
      rw [ciDedupGo] at h
      by_cases hy : pyLower y ∈ seen
      · rw [if_pos hy] at h
        obtain ⟨h1, h2⟩ := ih h
        exact ⟨List.mem_cons_of_mem _ h1, h2⟩
      · rw [if_neg hy] at h
        rcases List.mem_cons.1 h with h1 | h1
        · subst h1
          exact ⟨List.mem_cons_self _ _, hy⟩
        · obtain ⟨h2, h3⟩ := ih h1
          exact ⟨List.mem_cons_of_mem _ h2,
            fun hc => h3 (List.mem_cons_of_mem _ hc)⟩

theorem pairwise_ciDedupGo : ∀ (l seen : List String),
    List.Pairwise (fun a b => pyLower a ≠ pyLower b) (ciDedupGo seen l) := by
  intro l
  induction l with
  | nil => intro seen; exact List.Pairwise.nil
  | cons y ys ih =>
      intro seen
      rw [ciDedupGo]
      by_cases hy : pyLower y ∈ seen
      · rw [if_pos hy]
        exact ih seen
      · rw [if_neg hy]
        refine List.Pairwise.cons ?_ (ih _)
        intro b hb he
        exact (mem_ciDedupGo hb).2 (he ▸ List.mem_cons_self _ _)

theorem ciDedup_cons (t0 : String) (rest : List String) :
    ciDedup (t0 :: rest) = t0 :: ciDedupGo [pyLower t0] rest := by
  unfold ciDedup
  rw [ciDedupGo]
  simp

theorem mem_dedupExactGo : ∀ {l seen : List String} {x : String},
    x ∈ dedupExactGo seen l → x ∈ l := by
  intro l
  induction l with
  | nil => intro seen x h; simp [dedupExactGo] at h
  | cons y ys ih =>
      intro seen x h
      rw [dedupExactGo] at h
      by_cases hy : y ∈ seen
      · rw [if_pos hy] at h
        exact List.mem_cons_of_mem _ (ih h)
      · rw [if_neg hy] at h
        rcases List.mem_cons.1 h with h1 | h1
        · subst h1
          exact List.mem_cons_self _ _
        · exact List.mem_cons_of_mem _ (ih h1)

theorem expandTermWith_eq (mapping : List (String × String)) (t : String) :
    expandTermWith mapping t =
      if pyStrip t = "" then none
      else some (pyStrip t, ciDedup (expandBase mapping (pyStrip t) ++
        dedupExact ((expandBase mapping (pyStrip t)).map deaccent))) := rfl

theorem expandBase_cases (mapping : List (String × String)) (t0 : String) :
    expandBase mapping t0 = [t0] ∨
    ∃ c, alookup mapping (pyLower t0) = some c ∧ expandBase mapping t0 = [t0, c] := by
  unfold expandBase
  cases hlk : alookup mapping (pyLower t0) with
  | none => exact Or.inl rfl
  | some c =>
      by_cases hc : c ≠ "" ∧ c ∉ [t0]
      · refine Or.inr ⟨c, rfl, ?_⟩
        show (if c ≠ "" ∧ c ∉ [t0] then [t0] ++ [c] else [t0]) = [t0, c]
        rw [if_pos hc]
        rfl
      · refine Or.inl ?_
        show (if c ≠ "" ∧ c ∉ [t0] then [t0] ++ [c] else [t0]) = [t0]
        rw [if_neg hc]

theorem expandBase_canon (mapping : List (String × String)) (t0 c : String)
    (hlk : alookup mapping (pyLower t0) = some c) (hc1 : c ≠ "")
    (hc2 : pyLower c ≠ pyLower t0) : expandBase mapping t0 = [t0, c] := by
  unfold expandBase
  rw [hlk]
  show (if c ≠ "" ∧ c ∉ [t0] then [t0] ++ [c] else [t0]) = [t0, c]
  rw [if_pos ⟨hc1, by
    intro hmem
    have hco : c = t0 := by simpa using hmem
    exact hc2 (by rw [hco])⟩]
  rfl

/-- C8: a blank term is skipped outright (no dict entry, no variants); for a
non-blank term the expansion is keyed by the stripped term and its variant
list starts with the stripped term, contains no case-insensitive
duplicates, consists only of the term, its canonical synonym (when the
mapping has one) and their diacritic-stripped forms, and places the
canonical synonym second whenever one exists that is non-empty and
case-insensitively different from the term; the expansion of `"arroz"`
under the default mapping is exactly `["arroz", "arroz 5kg tipo 1"]`. -/
theorem expand_queries_spec :
    (∀ (mapping : List (String × String)) (t : String), pyStrip t = "" →
      expandTermWith mapping t = none) ∧
    (∀ t : String, pyStrip t = "" → expand_queries [t] = []) ∧
    (∀ (mapping : List (String × String)) (t t0 : String) (l : List String),
      expandTermWith mapping t = some (t0, l) →
      t0 = pyStrip t ∧
      l.head? = some t0 ∧
      List.Pairwise (fun a b => pyLower a ≠ pyLower b) l ∧
      (∀ x ∈ l, x = t0 ∨ x = deaccent t0 ∨
        ∃ c, alookup mapping (pyLower t0) = some c ∧ (x = c ∨ x = deaccent c)) ∧
      (∀ c, alookup mapping (pyLower t0) = some c → c ≠ "" → pyLower c ≠ pyLower t0 →
        l.get? 1 = some c)) ∧
    expand_queries ["arroz"] = [("arroz", ["arroz", "arroz 5kg tipo 1"])] := by
  refine ⟨?_, ?_, ?_, by decide⟩
  · intro mapping t h
    rw [expandTermWith_eq, if_pos h]
  · intro t h
    unfold expand_queries
    rw [List.foldl_cons, expandTermWith_eq, if_pos h]
    rfl
  · intro mapping t t0 l h
    rw [expandTermWith_eq] at h
    by_cases hne : pyStrip t = ""
    · rw [if_pos hne] at h
      simp at h
    · rw [if_neg hne] at h
      obtain ⟨rfl, rfl⟩ : pyStrip t = t0 ∧
          ciDedup (expandBase mapping (pyStrip t) ++
            dedupExact ((expandBase mapping (pyStrip t)).map deaccent)) = l := by
        simpa using h
      obtain ⟨tail, htail⟩ : ∃ tail, expandBase mapping (pyStrip t) =
          pyStrip t :: tail := by
        rcases expandBase_cases mapping (pyStrip t) with h1 | ⟨c, _, h1⟩
        · exact ⟨[], h1⟩
        · exact ⟨[c], h1⟩
      refine ⟨rfl, ?_, ?_, ?_, ?_⟩
      · rw [htail, List.cons_append, ciDedup_cons]
        rfl
      · exact pairwise_ciDedupGo _ []
      · intro x hx
        have hx2 : x ∈ expandBase mapping (pyStrip t) ++
            dedupExact ((expandBase mapping (pyStrip t)).map deaccent) :=
          (mem_ciDedupGo hx).1
        have hbase : ∀ y, y ∈ expandBase mapping (pyStrip t) →
            y = pyStrip t ∨ ∃ c, alookup mapping (pyLower (pyStrip t)) = some c ∧
              y = c := by
          intro y hy
          rcases expandBase_cases mapping (pyStrip t) with h1 | ⟨c, hlk, h1⟩
          · rw [h1] at hy
            exact Or.inl (by simpa using hy)
          · rw [h1] at hy
            rcases (by simpa using hy : y = pyStrip t ∨ y = c) with h2 | h2
            · exact Or.inl h2
            · exact Or.inr ⟨c, hlk, h2⟩
        rcases List.mem_append.1 hx2 with h2 | h2
        · rcases hbase x h2 with h3 | ⟨c, hlk, h3⟩
          · exact Or.inl h3
          · exact Or.inr (Or.inr ⟨c, hlk, Or.inl h3⟩)
        · have h3 : x ∈ (expandBase mapping (pyStrip t)).map deaccent :=
            mem_dedupExactGo h2
          obtain ⟨y, hy, rfl⟩ := List.mem_map.1 h3
          rcases hbase y hy with h4 | ⟨c, hlk, h4⟩
          · exact Or.inr (Or.inl (by rw [h4]))
          · exact Or.inr (Or.inr ⟨c, hlk, Or.inr (by rw [h4])⟩)
      · intro c hlk hc1 hc2
        rw [expandBase_canon mapping (pyStrip t) c hlk hc1 hc2]
        simp only [List.cons_append, List.nil_append]
        rw [ciDedup_cons, ciDedupGo]
        rw [if_neg (by simpa using hc2)]
        rfl

/-- C8 witness: the characterisation applied to the term `"arroz"` under the
default mapping. -/
theorem expand_queries_spec_witness :
    ("arroz" : String) = pyStrip "arroz" ∧
    (["arroz", "arroz 5kg tipo 1"] : List String).head? = some "arroz" ∧
    List.Pairwise (fun a b => pyLower a ≠ pyLower b) ["arroz", "arroz 5kg tipo 1"] ∧
    (∀ x ∈ (["arroz", "arroz 5kg tipo 1"] : List String), x = "arroz" ∨
      x = deaccent "arroz" ∨
      ∃ c, alookup load_default_mapping (pyLower "arroz") = some c ∧
        (x = c ∨ x = deaccent c)) ∧
    (∀ c, alookup load_default_mapping (pyLower "arroz") = some c → c ≠ "" →
      pyLower c ≠ pyLower "arroz" →
      (["arroz", "arroz 5kg tipo 1"] : List String).get? 1 = some c) :=
  expand_queries_spec.2.2.1 load_default_mapping "arroz" "arroz"
    ["arroz", "arroz 5kg tipo 1"] (by decide)

end Mercado
